import Mathlib

/-!
Verification of the gridmen hierarchical-grid core.

This file shallowly embeds the grid algorithms of the gridmen server:

* `server/crms/patch/patch.py` — per-patch quadtree cell store
  (`subdivide_cells`, `merge_cells`, `delete_cells`, `restore_cells`,
  `_get_parent_global_id`, `_get_children_global_ids`, `_get_coordinates`);
* `server/templates/grid/hooks.py` — meta-grid assembly
  (`_get_all_ancestor_keys`, the conflict-resolution pass of `assembly`,
  `_refine_risk_cells`, `_get_edge_index`, `_calc_horizontal_edges`,
  `_calc_vertical_edges`, `_calc_cell_edges`);
* `server/crms/grid.py` — `BlockGenerator.process` / `_recursive_split`.

Machine integers are modelled as `Nat` with the wraps of the source's
`uint8`/`uint32` casts written as explicit `% 256` / `% 2^32`; float
coordinates are modelled as `ℚ` (every comparison the proofs rely on is
between exactly representable values); Python exceptions are modelled with
`Option`/`Except`.
-/

deriving instance DecidableEq for Except

namespace Gridmen

/-- One entry of `level_info`: per-level grid dimensions in cells
(a `{'width': w, 'height': h}` dict in the source). -/
structure LevelEntry where
  width : Nat
  height : Nat
deriving DecidableEq

/-- One step of the `level_info` construction loop: the next level multiplies
the previous dimensions by the subdivision-rule factors. -/
def levelStep (e : LevelEntry) (r : Nat × Nat) : LevelEntry :=
  ⟨e.width * r.1, e.height * r.2⟩

/-- The loop body of `level_info` construction: starting after entry `prev`,
append one entry per remaining rule. -/
def extendLevelInfo (prev : LevelEntry) : List (Nat × Nat) → List LevelEntry
  | [] => []
  | r :: rs =>
    let next := levelStep prev r
    next :: extendLevelInfo next rs

/-- `level_info` as built by `Patch.__init__` (crms/patch/patch.py:85-91) and
`assembly` (templates/grid/hooks.py:1312-1318): index 0 is the virtual root
`1×1`, and each rule of `subdivide_rules[:-1]` extends the list by one level
whose dimensions are the previous level's multiplied by the rule factors. -/
def mkLevelInfo (rules : List (Nat × Nat)) : List LevelEntry :=
  ⟨1, 1⟩ :: extendLevelInfo ⟨1, 1⟩ rules.dropLast

namespace Patch

/-- The level geometry a `Patch` instance carries: its `subdivide_rules`
(`level_info` is derived from them exactly as the constructor does). -/
structure PatchGeom where
  subdivide_rules : List (Nat × Nat)
deriving DecidableEq

def PatchGeom.level_info (g : PatchGeom) : List LevelEntry :=
  mkLevelInfo g.subdivide_rules

/-- `Patch._get_children_global_ids` (crms/patch/patch.py:217-238).
Returns `none` for a level outside `level_info` (the source returns `None`);
otherwise lists the `sub_w * sub_h` children of `(level, global_id)` in
`local_id` order. -/
def getChildrenGlobalIds (g : PatchGeom) (level gid : Nat) : Option (List Nat) :=
  if level < g.level_info.length then
    let e := g.level_info.getD level ⟨1, 1⟩
    let rule := g.subdivide_rules.getD level (1, 1)
    let width := e.width
    let gu := gid % width
    let gv := gid / width
    let sw := rule.1
    let sh := rule.2
    let base := width * sw
    some ((List.range (sw * sh)).map fun localId =>
      (gv * sh + localId / sw) * base + (gu * sw + localId % sw))
  else none

/-- `Patch._get_parent_global_id` (crms/patch/patch.py:181-194).
`none` models the `IndexError` Python raises when `level` is outside the
level table.  (The source is only called with `level ≥ 1`; for `level = 0`
Python's negative indexing would pick the *last* rule, a case outside every
theorem below.) -/
def getParentGlobalId (g : PatchGeom) (level gid : Nat) : Option Nat :=
  match g.level_info.get? level, g.subdivide_rules.get? (level - 1),
        g.level_info.get? (level - 1) with
  | some e, some rule, some pe =>
    some ((gid / e.width / rule.2) * pe.width + (gid % e.width) / rule.1)
  | _, _, _ => none

/-- One row of the patch store: the `deleted` and `activate` flags
(the row's key is the DataFrame index). -/
structure CellRow where
  deleted : Bool
  activate : Bool
deriving DecidableEq

/-- The `uint64` store index key `(level << 32) | global_id`, modelled as the
pair it packs (injective for `global_id < 2^32`, which every key written by
the source satisfies because global ids are cast to `uint32`). -/
abbrev CellKey := Nat × Nat

/-- `_encode_index_batch` (patch.py:550-552): the batch operations cast
levels to `uint8` and global ids to `uint32` before packing, so the key is
the pair `(level % 256, global_id % 2^32)`. -/
def batchKey (level gid : Nat) : CellKey := (level % 256, gid % 2 ^ 32)

/-- `_encode_index` (patch.py:540-542): the scalar encoder used by
`merge_cells` packs `np.uint64(level) << 32 | np.uint64(global_id)`, i.e.
the pair `(level, global_id % 2^32)` for `level < 2^32` (every theorem below
stays far inside that range). -/
def mergeKey (level gid : Nat) : CellKey := (level, gid % 2 ^ 32)

/-- The patch cell store: the pandas DataFrame indexed by the encoded key,
as an association list in row order (`pd.concat` appends rows; a healthy
store has unique keys). -/
abbrev Store := List (CellKey × CellRow)

/-- `df.loc[keys, cols] = v`: update every row whose key occurs in `keys`. -/
def setFlags (store : Store) (keys : List CellKey) (f : CellRow → CellRow) :
    Store :=
  store.map fun kv => if kv.1 ∈ keys then (kv.1, f kv.2) else kv

/-- `Patch._initialize_default` (patch.py:108-129): one row per level-1 cell,
`activate=True`, `deleted=False`. -/
def initializeDefault (g : PatchGeom) : Store :=
  let e := g.level_info.getD 1 ⟨1, 1⟩
  (List.range (e.width * e.height)).map fun gid =>
    (batchKey 1 gid, (⟨false, true⟩ : CellRow))

/-- `Patch.subdivide_cells` (patch.py:240-335).  Returns the updated store
and the `(levels, global_ids)` lists of all produced children.  Note that
the source builds the child DataFrame with `activate=False` (patch.py:306-313)
and only sets `activate=True` on children that already existed in the store
(patch.py:319-322); brand-new children are concatenated with their
`activate=False` flag. -/
def subdivideCells (g : PatchGeom) (store : Store) (levels gids : List Nat) :
    Store × List Nat × List Nat :=
  if levels = [] ∨ gids = [] then (store, [], [])
  else
    let parentKeys := (levels.zip gids).map fun p => batchKey p.1 p.2
    let existingParents := parentKeys.filter fun k => (store.lookup k).isSome
    if existingParents = [] then (store, [], [])
    else
      let validParents := existingParents.filter fun k =>
        match store.lookup k with
        | some row => row.activate && !row.deleted
        | none => false
      if validParents = [] then (store, [], [])
      else
        let childPairs := validParents.flatMap fun k =>
          match getChildrenGlobalIds g k.1 k.2 with
          | none => []
          | some cs => cs.map fun c => ((k.1 + 1) % 256, c % 2 ^ 32)
        if childPairs = [] then (store, [], [])
        else
          let existingChild := childPairs.filter fun k => (store.lookup k).isSome
          let newChild := childPairs.filter fun k => (store.lookup k).isNone
          let store1 := setFlags store existingChild fun _ => ⟨false, true⟩
          let store2 := store1 ++ newChild.map fun k => (k, (⟨false, false⟩ : CellRow))
          let store3 := setFlags store2 validParents fun r => ⟨r.deleted, false⟩
          (store3, childPairs.map Prod.fst, childPairs.map Prod.snd)

/-- `Patch.delete_cells` (patch.py:337-359): mark existing, active,
non-deleted rows `deleted=True, activate=False`; no-op otherwise. -/
def deleteCells (store : Store) (levels gids : List Nat) : Store :=
  let cellKeys := (levels.zip gids).map fun p => batchKey p.1 p.2
  let existing := cellKeys.filter fun k => (store.lookup k).isSome
  if existing = [] then store
  else
    let valid := existing.filter fun k =>
      match store.lookup k with
      | some row => row.activate && !row.deleted
      | none => false
    if valid = [] then store
    else setFlags store valid fun _ => ⟨true, false⟩

/-- `Patch.restore_cells` (patch.py:457-476): mark existing rows
`activate=True, deleted=False` regardless of prior state. -/
def restoreCells (store : Store) (levels gids : List Nat) : Store :=
  if levels = [] ∨ gids = [] then store
  else
    let keys := (levels.zip gids).map fun p => batchKey p.1 p.2
    let cells := keys.filter fun k => (store.lookup k).isSome
    if cells = [] then store
    else setFlags store cells fun _ => ⟨false, true⟩

/-- A Python exception escaping a store operation. -/
inductive PyErr where
  | indexError
deriving DecidableEq

/-- Distinct elements in first-occurrence order — the iteration order of the
Python `Counter` built in `merge_cells` (`seen` accumulates emitted keys). -/
def firstDedupAux {α : Type} [DecidableEq α] : List α → List α → List α
  | [], _ => []
  | a :: l, seen =>
    if a ∈ seen then firstDedupAux l seen else a :: firstDedupAux l (a :: seen)

def firstDedup {α : Type} [DecidableEq α] (l : List α) : List α :=
  firstDedupAux l []

/-- The candidate-parent loop of `merge_cells` (patch.py:407-414): child keys
at level 1 are skipped, every other key contributes `(level-1, parent_id)`;
an out-of-table level makes `_get_parent_global_id` raise `IndexError`
before the store is consulted at all. -/
def mergeParentCandidates (g : PatchGeom) :
    List (Nat × Nat) → Except PyErr (List (Nat × Nat))
  | [] => .ok []
  | p :: ps =>
    if p.1 = 1 then mergeParentCandidates g ps
    else
      match getParentGlobalId g p.1 p.2 with
      | none => .error .indexError
      | some pg =>
        match mergeParentCandidates g ps with
        | .error e => .error e
        | .ok rest => .ok ((p.1 - 1, pg) :: rest)

/-- The activation loop of `merge_cells` (patch.py:419-430): a distinct
parent candidate is activated iff its occurrence count among the candidates
equals the expected child count (`sub_w * sub_h` at the parent's level) and
its row exists in the store. -/
def mergeActivatedAux (g : PatchGeom) (store : Store) (cands : List (Nat × Nat)) :
    List (Nat × Nat) → Except PyErr (List (Nat × Nat))
  | [] => .ok []
  | p :: ps =>
    match g.subdivide_rules.get? p.1 with
    | none => .error .indexError
    | some rule =>
      match mergeActivatedAux g store cands ps with
      | .error e => .error e
      | .ok rest =>
        if cands.count p = rule.1 * rule.2 ∧ (store.lookup (mergeKey p.1 p.2)).isSome
        then .ok (p :: rest) else .ok rest

def mergeActivated (g : PatchGeom) (store : Store) (cands : List (Nat × Nat)) :
    Except PyErr (List (Nat × Nat)) :=
  mergeActivatedAux g store cands (firstDedup cands)

/-- `Patch.merge_cells` (patch.py:389-455): activate every parent whose full
child-occurrence count appears in the batch and whose row exists, then drop
every store row of the activated parents' children, and return the activated
parents.  The parent's `deleted` flag is **not** touched (patch.py:437). -/
def mergeCells (g : PatchGeom) (store : Store) (levels gids : List Nat) :
    Except PyErr (Store × List Nat × List Nat) :=
  if levels = [] ∨ gids = [] then .ok (store, [], [])
  else
    match mergeParentCandidates g (levels.zip gids) with
    | .error e => .error e
    | .ok cands =>
      if cands = [] then .ok (store, [], [])
      else
        match mergeActivated g store cands with
        | .error e => .error e
        | .ok act =>
          if act = [] then .ok (store, [], [])
          else
            let keysToActivate := act.map fun p => mergeKey p.1 p.2
            let store1 := setFlags store keysToActivate fun r => ⟨r.deleted, true⟩
            let keysToDelete := act.flatMap fun p =>
              match getChildrenGlobalIds g p.1 p.2 with
              | none => []
              | some cs => (cs.map fun c => mergeKey (p.1 + 1) c).filter
                  fun k => (store1.lookup k).isSome
            let store2 := store1.filter fun kv => decide (kv.1 ∉ keysToDelete)
            .ok (store2, act.map Prod.fst, act.map Prod.snd)

/-- The subdivide-rule computation of `Patch.__init__` (patch.py:55-71):
the first rule is `ceil((bounds[2]-bounds[0]) / first_size[0])` by
`ceil(... / first_size[1])`, each later rule is the truncated ratio of
consecutive `grid_info` cell sizes, and a final `(1,1)` rule is appended.
Floats are modelled as `ℚ`; `math.ceil` is `Int.ceil`, and `int()` (which
truncates toward zero) is `Int.floor`, the same thing for the nonnegative
ratios that occur. -/
def mkSubdivideRules (bounds : List ℚ) (grid_info : List (ℚ × ℚ)) :
    List (Nat × Nat) :=
  let b0 := bounds.getD 0 0
  let b1 := bounds.getD 1 0
  let b2 := bounds.getD 2 0
  let b3 := bounds.getD 3 0
  let fs := grid_info.getD 0 (1, 1)
  let first : Nat × Nat :=
    ((⌈(b2 - b0) / fs.1⌉).toNat, (⌈(b3 - b1) / fs.2⌉).toNat)
  let rest := (List.range (grid_info.length - 1)).map fun i =>
    let la := grid_info.getD i (1, 1)
    let lb := grid_info.getD (i + 1) (1, 1)
    ((⌊la.1 / lb.1⌋).toNat, (⌊la.2 / lb.2⌋).toNat)
  (first :: rest) ++ [(1, 1)]

/-- `Patch._get_coordinates` (patch.py:196-215) for a single cell (the source
is vectorized over an array of global ids of one level): the cell bounding
box obtained by linear interpolation of the patch bounds. -/
def getCoordinates (bounds : List ℚ) (g : PatchGeom) (level gid : Nat) :
    ℚ × ℚ × ℚ × ℚ :=
  let b0 := bounds.getD 0 0
  let b1 := bounds.getD 1 0
  let b2 := bounds.getD 2 0
  let b3 := bounds.getD 3 0
  let e := g.level_info.getD level ⟨1, 1⟩
  let width : ℚ := e.width
  let height : ℚ := e.height
  let gx : ℚ := (gid % e.width : Nat)
  let gy : ℚ := (gid / e.width : Nat)
  (b0 + (b2 - b0) * gx / width,
   b1 + (b3 - b1) * gy / height,
   b0 + (b2 - b0) * (gx + 1) / width,
   b1 + (b3 - b1) * (gy + 1) / height)

/-- The per-cell store invariant of the spec's data model: a cell with
`activate=true` must have `deleted=false`. -/
def StoreInv (store : Store) : Prop :=
  ∀ kv ∈ store, kv.2.activate = true → kv.2.deleted = false

instance (store : Store) : Decidable (StoreInv store) := by
  unfold StoreInv; infer_instance

end Patch

namespace GridHooks

/-- A 9-byte cell key (`struct.pack('!BQ', level, global_id)`) of
templates/grid/hooks.py, modelled as the `(level, global_id)` pair it packs
(`struct.pack` refuses a level outside `0..255`, so packing is injective on
the keys that actually occur). -/
abbrev Key := Nat × Nat

/-- The hooks copy of `_get_children_global_ids`
(templates/grid/hooks.py:465-491); unlike the patch version it returns `[]`
(not `None`) for an out-of-range level. -/
def getChildrenGlobalIds (level gid : Nat) (info : List LevelEntry)
    (rules : List (Nat × Nat)) : List Nat :=
  if level < info.length then
    let cols := (info.getD level ⟨1, 1⟩).width
    let gu := gid % cols
    let gv := gid / cols
    let sw := (rules.getD level (1, 1)).1
    let sh := (rules.getD level (1, 1)).2
    (List.range (sw * sh)).map fun localId =>
      (gv * sh + localId / sw) * (cols * sw) + (gu * sw + localId % sw)
  else []

/-- The loop of `_get_all_ancestor_keys` (templates/grid/hooks.py:375-391):
walking down from child level `cl`, emit the ancestor key at every level
`cl-1 … 1` (the virtual root level 0 is skipped), each parent id obtained
from the previous child id by integer division by the subdivision factors. -/
def ancestorsFrom (info : List LevelEntry) (rules : List (Nat × Nat)) :
    Nat → Nat → List Key
  | 0, _ => []
  | 1, _ => []
  | pl + 2, gid =>
    let rule := rules.getD (pl + 1) (1, 1)
    let pcols := (info.getD (pl + 1) ⟨1, 1⟩).width
    let ccols := (info.getD (pl + 2) ⟨1, 1⟩).width
    let pgid := (gid / ccols / rule.2) * pcols + (gid % ccols) / rule.1
    (pl + 1, pgid) :: ancestorsFrom info rules (pl + 1) pgid

/-- `_get_all_ancestor_keys` (templates/grid/hooks.py:375-391). -/
def getAllAncestorKeys (info : List LevelEntry) (rules : List (Nat × Nat))
    (key : Key) : List Key :=
  ancestorsFrom info rules key.1 key.2

/-- The ancestor keys gathered in one iteration of the conflict-resolution
loop of `assembly` (templates/grid/hooks.py:1338-1345): ancestors of every
active key whose level byte equals `level`. -/
def ancestorsToRemove (info : List LevelEntry) (rules : List (Nat × Nat))
    (s : Finset Key) (level : Nat) : Finset Key :=
  (s.filter fun k => k.1 = level).biUnion fun k =>
    (getAllAncestorKeys info rules k).toFinset

/-- One iteration of the conflict-resolution loop: remove the gathered
ancestors from the active set (`difference_update`). -/
def conflictStep (info : List LevelEntry) (rules : List (Nat × Nat))
    (s : Finset Key) (level : Nat) : Finset Key :=
  s \ ancestorsToRemove info rules s level

/-- The iteration order `range(len(meta_level_info), 1, -1)` of the
conflict-resolution loop: `[n, n-1, …, 2]`. -/
def conflictLevels (n : Nat) : List Nat :=
  (List.range' 2 (n - 1)).reverse

/-- The conflict-resolution pass of `assembly` (hooks.py:1336-1345): walk the
levels from deepest to shallowest, removing every ancestor of a key present
at the level being processed. -/
def resolveConflicts (info : List LevelEntry) (rules : List (Nat × Nat))
    (s : Finset Key) : Finset Key :=
  (conflictLevels info.length).foldl (conflictStep info rules) s

/-! #### Risk grading and refinement

`assembly` (hooks.py:1357) calls
`_refine_risk_cells(risk_cells, meta_level_info, subdivide_rules)` although
the function's signature (hooks.py:577) is
`(risk_cells, subdivide_rules, meta_level_info)`, so the two tables arrive
swapped.  The table entries are therefore modelled with their dynamic Python
types, because the swap makes `_get_children_global_ids` index a
`[sub_w, sub_h]` *list* with the *string* `'width'` — a `TypeError`. -/

/-- A table entry as passed around the risk-refinement code: either a
`{'width': …, 'height': …}` dict (an entry of `meta_level_info`) or a
`[sub_w, sub_h]` pair (an entry of `subdivide_rules`). -/
inductive PyTableEntry where
  | levelDict (width height : Nat)
  | rulePair (subW subH : Nat)
deriving DecidableEq

/-- A Python exception raised by a dynamic table access. -/
inductive PyDynErr where
  | typeError
  | keyError
deriving DecidableEq

/-- `entry['width']`: a list indexed with a string raises `TypeError`. -/
def pyWidthField : PyTableEntry → Except PyDynErr Nat
  | .levelDict w _ => .ok w
  | .rulePair _ _ => .error .typeError

/-- `entry[0]`: a dict without the key `0` raises `KeyError`. -/
def pyItem0 : PyTableEntry → Except PyDynErr Nat
  | .levelDict _ _ => .error .keyError
  | .rulePair a _ => .ok a

/-- `entry[1]`. -/
def pyItem1 : PyTableEntry → Except PyDynErr Nat
  | .levelDict _ _ => .error .keyError
  | .rulePair _ b => .ok b

/-- hooks `_get_children_global_ids` (hooks.py:465-491) over
dynamically-typed tables, in the source's access order:
`meta_level_info[level]['width']` first, then `subdivide_rules[level][0]`
and `[1]`.  (In both call patterns below the two tables have equal length,
so the in-range check covers both.) -/
def getChildrenGlobalIdsDyn (level gid : Nat)
    (meta_level_info subdivide_rules : List PyTableEntry) :
    Except PyDynErr (List Nat) :=
  if level < meta_level_info.length then
    match pyWidthField (meta_level_info.getD level (.levelDict 1 1)) with
    | .error e => .error e
    | .ok cols =>
      match pyItem0 (subdivide_rules.getD level (.levelDict 1 1)) with
      | .error e => .error e
      | .ok sw =>
        match pyItem1 (subdivide_rules.getD level (.levelDict 1 1)) with
        | .error e => .error e
        | .ok sh =>
          .ok ((List.range (sw * sh)).map fun localId =>
            (gid / cols * sh + localId / sw) * (cols * sw) +
              (gid % cols * sw + localId % sw))
  else .ok []

/-- `_refine_risk_cells` (hooks.py:577-589), parameters in the order of its
`def` line — `(risk_cells, subdivide_rules, meta_level_info)`; its body
passes its own `meta_level_info` parameter as the children helper's
`meta_level_info` argument.  Replaces every risk cell by its direct
children, one level deeper.  The source accumulates the child keys into a
`set`; here the additions are returned as a list in insertion order (the
set's value is the list's `toFinset`). -/
def refineRiskCellsDyn (riskCells : List Key)
    (subdivide_rules meta_level_info : List PyTableEntry) :
    Except PyDynErr (List Key) :=
  match riskCells with
  | [] => .ok []
  | k :: rest =>
    match getChildrenGlobalIdsDyn k.1 k.2 meta_level_info subdivide_rules with
    | .error e => .error e
    | .ok cs =>
      match refineRiskCellsDyn rest subdivide_rules meta_level_info with
      | .error e => .error e
      | .ok acc => .ok ((cs.map fun c => ((k.1 + 1, c) : Key)) ++ acc)

/-- View of `meta_level_info` as dynamically-typed entries. -/
def toLevelDicts (info : List LevelEntry) : List PyTableEntry :=
  info.map fun e => .levelDict e.width e.height

/-- View of `subdivide_rules` as dynamically-typed entries. -/
def toRulePairs (rules : List (Nat × Nat)) : List PyTableEntry :=
  rules.map fun r => .rulePair r.1 r.2

/-- `ADJACENT_CHECK_NORTH` (hooks.py:275). -/
def adjacentCheckNorth (localId subW _subH : Nat) : Bool :=
  localId < subW

/-- `ADJACENT_CHECK_EAST` (hooks.py:276). -/
def adjacentCheckEast (localId subW _subH : Nat) : Bool :=
  localId % subW == 0

/-- `ADJACENT_CHECK_WEST` (hooks.py:277). -/
def adjacentCheckWest (localId subW _subH : Nat) : Bool :=
  localId % subW == subW - 1

/-- `ADJACENT_CHECK_SOUTH` (hooks.py:278). -/
def adjacentCheckSouth (localId subW subH : Nat) : Bool :=
  decide (localId ≥ subW * (subH - 1))

/-- `_get_cell_from_uv` (hooks.py:437-445); `u`/`v` are `Int` because the
callers pass `u±1`/`v±1`. -/
def getCellFromUv (level : Nat) (cols rows : Nat) (u v : Int)
    (info : List LevelEntry) : Option Key :=
  if level ≥ info.length then none
  else if u < 0 ∨ u ≥ (cols : Int) ∨ v < 0 ∨ v ≥ (rows : Int) then none
  else some (level, v.toNat * cols + u.toNat)

/-- One pass over the enumerated children of a popped stack entry inside
`_check_risk_along_edge` (hooks.py:523-534): returns whether a risk witness
was found, and the child keys pushed for further descent.  (The source
returns `True` immediately on the first witness; collecting the remaining
pushes cannot change the boolean outcome.) -/
def riskChildScan (cellKeys : Finset Key) (threshold cellLevel lvl : Nat)
    (adj : Nat → Nat → Nat → Bool) (sw sh : Nat) :
    List (Nat × Nat) → Bool × List Key
  | [] => (false, [])
  | (localId, cgid) :: rest =>
    let r := riskChildScan cellKeys threshold cellLevel lvl adj sw sh rest
    if adj localId sw sh then
      if (lvl + 1, cgid) ∈ cellKeys then
        if lvl + 1 - cellLevel > threshold then (true, r.2) else r
      else (r.1, (lvl + 1, cgid) :: r.2)
    else r

/-- The `while cell_stack` loop of `_check_risk_along_edge`
(hooks.py:511-535), with explicit fuel for the unbounded `while` (each
pushed entry is one level deeper, so any fuel beyond the reachable subtree
size leaves the result unchanged). -/
def checkRiskLoop (threshold : Nat) (cellKeys : Finset Key)
    (rules : List (Nat × Nat)) (info : List LevelEntry) (cellLevel : Nat)
    (adj : Nat → Nat → Nat → Bool) : Nat → List Key → Bool
  | 0, _ => false
  | _ + 1, [] => false
  | fuel + 1, (l, gid) :: stack =>
    if l ≥ rules.length then
      checkRiskLoop threshold cellKeys rules info cellLevel adj fuel stack
    else
      let sw := (rules.getD l (1, 1)).1
      let sh := (rules.getD l (1, 1)).2
      let scan := riskChildScan cellKeys threshold cellLevel l adj sw sh
        (getChildrenGlobalIds l gid info rules).enum
      if scan.1 then true
      else checkRiskLoop threshold cellKeys rules info cellLevel adj fuel
        (scan.2 ++ stack)

/-- `_check_risk_along_edge` (hooks.py:493-535). -/
def checkRiskAlongEdge (fuel threshold : Nat) (cellKeys : Finset Key)
    (rules : List (Nat × Nat)) (info : List LevelEntry)
    (cellLevel nLevel nGid : Nat) (adj : Nat → Nat → Nat → Bool) : Bool :=
  if (nLevel, nGid) ∈ cellKeys then false
  else checkRiskLoop threshold cellKeys rules info cellLevel adj fuel
    [(nLevel, nGid)]

/-- `_find_risk_cells` (hooks.py:537-575): a cell is a risk cell when any of
its four sides has, in the neighbouring subtree, an active leaf more than
`threshold` levels deeper. -/
def findRiskCells (fuel threshold : Nat) (cellKeys : Finset Key)
    (rules : List (Nat × Nat)) (info : List LevelEntry) : Finset Key :=
  cellKeys.filter fun k =>
    let cols := (info.getD k.1 ⟨1, 1⟩).width
    let rows := (info.getD k.1 ⟨1, 1⟩).height
    let gu : Int := (k.2 % cols : Nat)
    let gv : Int := (k.2 / cols : Nat)
    (match getCellFromUv k.1 cols rows gu (gv + 1) info with
     | some t => checkRiskAlongEdge fuel threshold cellKeys rules info
        k.1 t.1 t.2 adjacentCheckNorth
     | none => false) ||
    (match getCellFromUv k.1 cols rows (gu - 1) gv info with
     | some t => checkRiskAlongEdge fuel threshold cellKeys rules info
        k.1 t.1 t.2 adjacentCheckWest
     | none => false) ||
    (match getCellFromUv k.1 cols rows gu (gv - 1) info with
     | some t => checkRiskAlongEdge fuel threshold cellKeys rules info
        k.1 t.1 t.2 adjacentCheckSouth
     | none => false) ||
    (match getCellFromUv k.1 cols rows (gu + 1) gv info with
     | some t => checkRiskAlongEdge fuel threshold cellKeys rules info
        k.1 t.1 t.2 adjacentCheckEast
     | none => false)

end GridHooks

namespace Grid

/-- A `HydroElement` as consumed by the block generator
(crms/grid.py:8-42): the generator reads only its bounding box (and the
center derived from it); coordinates are modelled as `ℚ`. -/
structure HydroElement where
  min_x : ℚ
  min_y : ℚ
  max_x : ℚ
  max_y : ℚ
deriving DecidableEq

/-- x component of `HydroElement.center` (grid.py:36-42). -/
def HydroElement.centerX (e : HydroElement) : ℚ := (e.min_x + e.max_x) / 2

/-- y component of `HydroElement.center`. -/
def HydroElement.centerY (e : HydroElement) : ℚ := (e.min_y + e.max_y) / 2

abbrev Bounds := ℚ × ℚ × ℚ × ℚ

/-- `BlockGenerator.MAX_BLOCKS_SIZE` (grid.py:239). -/
def MAX_BLOCKS_SIZE : Nat := 1024 * 1024

/-- `BlockGenerator._recursive_split` (grid.py:275-320), parametrized by the
element-count cap (the class constant `MAX_BLOCKS_SIZE` in the source) and
by fuel bounding the recursion depth (`none` = the recursion did not finish
within the fuel; Python has no such bound and can in principle recurse
forever on more than `cap` elements with identical centers).  Each produced
block is the `(elements, bounds)` pair that `_create_block_file`
(grid.py:322-340) records, with `count = len(elements)`. -/
def recursiveSplit (cap : Nat) :
    Nat → List HydroElement → Bounds →
      Option (List (List HydroElement × Bounds))
  | 0, _, _ => none
  | fuel + 1, elements, bounds =>
    if elements.length ≤ cap then some [(elements, bounds)]
    else
      let x0 := bounds.1
      let y0 := bounds.2.1
      let x1 := bounds.2.2.1
      let y1 := bounds.2.2.2
      let width := x1 - x0
      let height := y1 - y0
      if height ≤ width then
        let splitX := x0 + width / 2
        let l1 := elements.filter fun e => decide (e.centerX < splitX)
        let l2 := elements.filter fun e => !(decide (e.centerX < splitX))
        match (if l1 = [] then some [] else
                recursiveSplit cap fuel l1 (x0, y0, splitX, y1)),
              (if l2 = [] then some [] else
                recursiveSplit cap fuel l2 (splitX, y0, x1, y1)) with
        | some r1, some r2 => some (r1 ++ r2)
        | _, _ => none
      else
        let splitY := (y0 + y1) / 2
        let l1 := elements.filter fun e => decide (e.centerY < splitY)
        let l2 := elements.filter fun e => !(decide (e.centerY < splitY))
        match (if l1 = [] then some [] else
                recursiveSplit cap fuel l1 (x0, y0, x1, splitY)),
              (if l2 = [] then some [] else
                recursiveSplit cap fuel l2 (x0, splitY, x1, y1)) with
        | some r1, some r2 => some (r1 ++ r2)
        | _, _ => none

/-- The global-bounds fold of `BlockGenerator.process` (grid.py:256-269):
start from the first element's bounds and widen over every element. -/
def processGlobalBounds : List HydroElement → Bounds
  | [] => (0, 0, 0, 0)
  | e :: rest =>
    (e :: rest).foldl
      (fun acc f => (min acc.1 f.min_x, min acc.2.1 f.min_y,
        max acc.2.2.1 f.max_x, max acc.2.2.2 f.max_y))
      (e.min_x, e.min_y, e.max_x, e.max_y)

/-- `BlockGenerator.process` (grid.py:249-273): an empty input produces no
blocks; otherwise compute the global bounds and recursively split. -/
def processBlocks (cap fuel : Nat) (elements : List HydroElement) :
    Option (List (List HydroElement × Bounds)) :=
  if elements = [] then some []
  else recursiveSplit cap fuel elements (processGlobalBounds elements)

end Grid

namespace GridEdges

/-- The `EdgeCode` enum of templates/grid/hooks.py:262-266
(NORTH = 0, WEST = 1, SOUTH = 2, EAST = 3). -/
inductive EdgeCode where
  | north
  | west
  | south
  | east
deriving DecidableEq

/-- `TOGGLE_EDGE_CODE_MAP` (templates/grid/hooks.py:268-273). -/
def opposite : EdgeCode → EdgeCode
  | .north => .south
  | .west => .east
  | .south => .north
  | .east => .west

/-- A `[numerator, denominator]` pair as produced by `_simplify_fraction`. -/
abbrev Frac := Nat × Nat

/-- The `(x_min_frac, x_max_frac, y_min_frac, y_max_frac)` tuple returned by
`_get_fractional_coords`. -/
abbrev FractCoords := Frac × Frac × Frac × Frac

/-- The 25-byte packed edge key of `_get_edge_index`
(`struct.pack('!BIIIIII', dir, min_num, min_den, max_num, max_den,
shared_num, shared_den)`), modelled as the tuple it packs (packing is
injective on its in-range fields). -/
abbrev EdgeKey := Nat × Frac × Frac × Frac

/-- Default fractional-coordinate tuple (used only for total list indexing). -/
def fc0 : FractCoords := ((0, 0), (0, 0), (0, 0), (0, 0))

/-- Default edge key (used only for total list indexing). -/
def key0 : EdgeKey := (0, (0, 0), (0, 0), (0, 0))

/-- The Euclidean `while b != 0: a, b = b, a % b` loop of `_simplify_fraction`
(templates/grid/hooks.py:656-660), run on explicit fuel; `b + 1` steps always
suffice because `b` strictly decreases. -/
def gcdLoop : Nat → Nat → Nat → Nat
  | 0, a, _ => a
  | fuel + 1, a, b => if b = 0 then a else gcdLoop fuel b (a % b)

/-- `_simplify_fraction(n, m)` (templates/grid/hooks.py:655-660): divide both
components by their gcd.  (For `m = 0 = n` the source would divide by zero;
every call site passes a positive `m`.) -/
def simplifyFraction (n m : Nat) : Frac :=
  let a := gcdLoop (m + 1) n m
  (n / a, m / a)

/-- `_get_fractional_coords` (templates/grid/hooks.py:662-674): the cell's
column/row extent as reduced fractions of the level dimensions. -/
def getFractionalCoords (level gid : Nat) (info : List LevelEntry) : FractCoords :=
  let w := (info.getD level ⟨1, 1⟩).width
  let h := (info.getD level ⟨1, 1⟩).height
  let u := gid % w
  let v := gid / w
  (simplifyFraction u w, simplifyFraction (u + 1) w,
   simplifyFraction v h, simplifyFraction (v + 1) h)

/-- Exact equality of the ratios of two fraction pairs (the source compares
the `float` quotients `p[0]/p[1]` and `q[0]/q[1]`; over positive denominators
that is the cross-multiplied comparison). -/
abbrev ratioEq (p q : Frac) : Prop := p.1 * q.2 = q.1 * p.2

/-- The canonical edge key built by `_get_edge_index`
(templates/grid/hooks.py:695-716): the varying range is reordered so that the
smaller ratio comes first (the source compares the `float` quotients; modelled
as the exact rational comparison), then the direction bit and the three
fraction pairs are packed. -/
def mkEdgeKey (dir : Nat) (minF maxF sharedF : Frac) : EdgeKey :=
  if maxF.1 * minF.2 < minF.1 * maxF.2 then
    ((if dir = 0 then 0 else 1), maxF, minF, sharedF)
  else
    ((if dir = 0 then 0 else 1), minF, maxF, sharedF)

/-- The edge-builder output state: `edge_index_cache` (the list of distinct
keys, in insertion order), `edge_adj_cell_indices` (one `[cell_b, cell_a]` /
`[cell_a, cell_b]` record per key) and the log of
`_add_edge_to_cell(cell, code, index)` calls (the per-cell edge sets).
`edge_index_dict` always holds exactly the keys of `edge_index_cache`, so the
dict is modelled by membership in the cache. -/
structure EdgeState where
  cache : List EdgeKey
  adj : List (Option Nat × Option Nat)
  cellLog : List (Nat × EdgeCode × Nat)

/-- The empty builder state (`assembly` starts with empty caches). -/
def emptyEdgeState : EdgeState := ⟨[], [], []⟩

/-- Number of non-`None` entries of an adjacency record. -/
def refCount (r : Option Nat × Option Nat) : Nat :=
  (if r.1.isSome then 1 else 0) + (if r.2.isSome then 1 else 0)

/-- The index returned by `_get_edge_index` (templates/grid/hooks.py:718-728):
the position of the key if cached, else the append position.  The source
computes index and cache update in one function; value and state parts are
separated here. -/
def getEdgeIndexVal (st : EdgeState) (dir : Nat) (minF maxF sharedF : Frac) : Nat :=
  let key := mkEdgeKey dir minF maxF sharedF
  if key ∈ st.cache then st.cache.indexOf key else st.cache.length

/-- The cache update of `_get_edge_index` (templates/grid/hooks.py:718-728):
a new key is appended together with its adjacency record
`[cell_key_b, cell_key_a]` when the emission comes from the NORTH or WEST
side and `[cell_key_a, cell_key_b]` otherwise; a cached key changes nothing. -/
def getEdgeIndexSt (st : EdgeState) (cellKeyA : Nat) (cellKeyB : Option Nat)
    (dir : Nat) (minF maxF sharedF : Frac) (codeFromA : EdgeCode) : EdgeState :=
  let key := mkEdgeKey dir minF maxF sharedF
  if key ∈ st.cache then st
  else
    { st with
      cache := st.cache ++ [key],
      adj := st.adj ++
        [if codeFromA = EdgeCode.north ∨ codeFromA = EdgeCode.west
         then (cellKeyB, some cellKeyA) else (some cellKeyA, cellKeyB)] }

/-- `_add_edge_to_cell` (templates/grid/hooks.py:730-734), logged as a
`(cell, edge code, edge index)` triple. -/
def addEdgeToCell (st : EdgeState) (cellKey : Nat) (code : EdgeCode)
    (edgeIndex : Nat) : EdgeState :=
  { st with cellLog := st.cellLog ++ [(cellKey, code, edgeIndex)] }

/-- One processed neighbour of `_calc_horizontal_edges` /
`_calc_vertical_edges`: its grid index and its min/max fractions along the
varying axis. -/
abbrev Span := Nat × Frac × Frac

/-- Default span (used only for total list indexing). -/
def span0 : Span := (0, (0, 0), (0, 0))

/-- The sort key of the processed-neighbour sort (`n['x_min']` resp.
`n['y_min']` as a real value; exact rational comparison of the fractions). -/
def spanLe (p q : Span) : Prop := p.2.1.1 * q.2.1.2 ≤ q.2.1.1 * p.2.1.2

instance : DecidableRel spanLe := fun p q =>
  inferInstanceAs (Decidable (p.2.1.1 * q.2.1.2 ≤ q.2.1.1 * p.2.1.2))

/-- Emission of one neighbour span (`_get_edge_index` with the neighbour as
`cell_key_b` followed by `_add_edge_to_cell` on both cells). -/
def emitSpan (st : EdgeState) (cellIndex : Nat) (dir : Nat) (sharedF : Frac)
    (code op : EdgeCode) (p : Span) : EdgeState :=
  let e := getEdgeIndexVal st dir p.2.1 p.2.2 sharedF
  let st1 := getEdgeIndexSt st cellIndex (some p.1) dir p.2.1 p.2.2 sharedF code
  addEdgeToCell (addEdgeToCell st1 cellIndex code e) p.1 op e

/-- Emission of a cell-only segment (`_get_edge_index` with `cell_key_b =
None` followed by `_add_edge_to_cell` on the emitting cell): the
no-neighbour case and the gap segments. -/
def emitGap (st : EdgeState) (cellIndex : Nat) (dir : Nat)
    (minF maxF sharedF : Frac) (code : EdgeCode) : EdgeState :=
  let e := getEdgeIndexVal st dir minF maxF sharedF
  let st1 := getEdgeIndexSt st cellIndex none dir minF maxF sharedF code
  addEdgeToCell st1 cellIndex code e

/-- The `for i in range(len(processed_neighbours) - 1)` loop plus the final
neighbour emission of `_calc_horizontal_edges` / `_calc_vertical_edges`
(templates/grid/hooks.py:790-825): each neighbour span is emitted, and a gap
segment is emitted between consecutive spans whose boundaries differ. -/
def spanLoop (st : EdgeState) (cellIndex : Nat) (dir : Nat) (sharedF : Frac)
    (code op : EdgeCode) : List Span → EdgeState
  | [] => st
  | [p] => emitSpan st cellIndex dir sharedF code op p
  | p :: q :: rest =>
    let st1 := emitSpan st cellIndex dir sharedF code op p
    let st2 :=
      if ratioEq p.2.2 q.2.1 then st1
      else emitGap st1 cellIndex dir p.2.2 q.2.1 sharedF code
    spanLoop st2 cellIndex dir sharedF code op (q :: rest)

/-- The direction bit of a side: horizontal (north/south) edges pass `1`,
vertical (west/east) edges pass `0` (templates/grid/hooks.py:933-944). -/
def axisDir : EdgeCode → Nat
  | .north => 1
  | .south => 1
  | .west => 0
  | .east => 0

/-- The min fraction of a cell along the axis a side varies on: `x_min` for
horizontal sides, `y_min` for vertical ones. -/
def selMin (s : EdgeCode) (fc : FractCoords) : Frac :=
  match s with
  | .north => fc.1
  | .south => fc.1
  | .west => fc.2.2.1
  | .east => fc.2.2.1

/-- The max fraction of a cell along the axis a side varies on. -/
def selMax (s : EdgeCode) (fc : FractCoords) : Frac :=
  match s with
  | .north => fc.2.1
  | .south => fc.2.1
  | .west => fc.2.2.2
  | .east => fc.2.2.2

/-- The shared fraction a side is emitted with (`_calc_cell_edges`,
templates/grid/hooks.py:933-944): `y_max` for NORTH, `x_min` for WEST,
`y_min` for SOUTH, `x_max` for EAST. -/
def selShared (s : EdgeCode) (fc : FractCoords) : Frac :=
  match s with
  | .north => fc.2.2.2
  | .west => fc.1
  | .south => fc.2.2.1
  | .east => fc.2.1

/-- The processed-neighbour list of `_calc_horizontal_edges` /
`_calc_vertical_edges` (templates/grid/hooks.py:765-780), sorted by the min
fraction along the varying axis (Python's stable sort, modelled by insertion
sort). -/
def sortedSpans (fcs : List FractCoords) (s : EdgeCode) (ns : List Nat) :
    List Span :=
  List.insertionSort spanLe
    (ns.map fun k => (k, selMin s (fcs.getD k fc0), selMax s (fcs.getD k fc0)))

/-- One side of one cell: `_calc_horizontal_edges`
(templates/grid/hooks.py:736-826) for north/south and `_calc_vertical_edges`
(templates/grid/hooks.py:828-918) for west/east — the two functions are
textual mirrors and differ exactly in the axis selectors and direction bit.
The three branches: no neighbour (whole side, `cell_key_b = None`), a single
coarser neighbour (whole side against that neighbour), and equal-or-finer
neighbours (per-neighbour spans with gap segments where the sorted spans do
not abut, plus leading/trailing gaps). -/
def calcSideEdges (st : EdgeState) (cells : List (Nat × Nat))
    (fcs : List FractCoords) (cellIndex level : Nat)
    (neighbourIndices : List Nat) (s : EdgeCode) : EdgeState :=
  let fc := fcs.getD cellIndex fc0
  let dir := axisDir s
  let cMin := selMin s fc
  let cMax := selMax s fc
  let sharedF := selShared s fc
  let op := opposite s
  match neighbourIndices with
  | [] => emitGap st cellIndex dir cMin cMax sharedF s
  | j :: rest =>
    if rest = [] ∧ (cells.getD j (0, 0)).1 < level then
      emitSpan st cellIndex dir sharedF s op (j, cMin, cMax)
    else
      let ss := sortedSpans fcs s (j :: rest)
      let st1 :=
        if ratioEq cMin (ss.headD span0).2.1 then st
        else emitGap st cellIndex dir cMin (ss.headD span0).2.1 sharedF s
      let st2 := spanLoop st1 cellIndex dir sharedF s op ss
      if ratioEq cMax (ss.getLastD span0).2.2 then st2
      else emitGap st2 cellIndex dir (ss.getLastD span0).2.2 cMax sharedF s

/-- The per-cell body of `_calc_cell_edges` (templates/grid/hooks.py:930-944):
the NORTH, WEST, SOUTH and EAST sides of the cell at `gridIndex`, in source
order. -/
def processCell (cells : List (Nat × Nat)) (fcs : List FractCoords)
    (nbr : Nat → EdgeCode → List Nat) (st : EdgeState) (gridIndex : Nat) :
    EdgeState :=
  let level := (cells.getD gridIndex (0, 0)).1
  let st1 := calcSideEdges st cells fcs gridIndex level (nbr gridIndex .north) .north
  let st2 := calcSideEdges st1 cells fcs gridIndex level (nbr gridIndex .west) .west
  let st3 := calcSideEdges st2 cells fcs gridIndex level (nbr gridIndex .south) .south
  calcSideEdges st3 cells fcs gridIndex level (nbr gridIndex .east) .east

/-- The pre-computed `fract_coords` list of `_calc_cell_edges`
(templates/grid/hooks.py:927-928). -/
def edgeFractCoords (info : List LevelEntry) (cells : List (Nat × Nat)) :
    List FractCoords :=
  cells.map fun c => getFractionalCoords c.1 c.2 info

/-- `_calc_cell_edges` (templates/grid/hooks.py:920-945): fractional
coordinates for every cell, then each cell's four sides in grid order,
starting from empty caches.  `cells` is `grid_cache.array` (the assembled
`(level, global_id)` leaves) and `nbr` is `grid_cache.neighbours` (the
per-cell, per-side neighbour index lists computed by the neighbour search). -/
def calcCellEdges (info : List LevelEntry) (cells : List (Nat × Nat))
    (nbr : Nat → EdgeCode → List Nat) : EdgeState :=
  let fcs := edgeFractCoords info cells
  (List.range cells.length).foldl (processCell cells fcs nbr) emptyEdgeState

/-- The canonical key of cell `i`'s whole side `s` (the key `_get_edge_index`
builds when a side is emitted in one piece). -/
def sideKey (fcs : List FractCoords) (i : Nat) (s : EdgeCode) : EdgeKey :=
  mkEdgeKey (axisDir s) (selMin s (fcs.getD i fc0)) (selMax s (fcs.getD i fc0))
    (selShared s (fcs.getD i fc0))

/-- The key cell `i` emits on side `s` for neighbour `j`: the whole side when
the neighbour is coarser, the neighbour's span at `i`'s shared fraction
otherwise. -/
def emittedKey (cells : List (Nat × Nat)) (fcs : List FractCoords)
    (i : Nat) (s : EdgeCode) (j : Nat) : EdgeKey :=
  if (cells.getD j (0, 0)).1 < (cells.getD i (0, 0)).1 then sideKey fcs i s
  else
    mkEdgeKey (axisDir s) (selMin s (fcs.getD j fc0)) (selMax s (fcs.getD j fc0))
      (selShared s (fcs.getD i fc0))

/-- The four edge codes. -/
def allEdgeCodes : List EdgeCode := [.north, .west, .south, .east]

/-- A boundary key: the whole-side key of some cell side that has no
neighbour. -/
abbrev isBoundaryKey (fcs : List FractCoords) (n : Nat)
    (nbr : Nat → EdgeCode → List Nat) (k : EdgeKey) : Prop :=
  ∃ i ∈ List.range n, ∃ s ∈ allEdgeCodes, nbr i s = [] ∧ k = sideKey fcs i s

/-- An interior key: the key some cell emits for one of its neighbours. -/
abbrev isInteriorKey (cells : List (Nat × Nat)) (fcs : List FractCoords)
    (nbr : Nat → EdgeCode → List Nat) (k : EdgeKey) : Prop :=
  ∃ i ∈ List.range cells.length, ∃ s ∈ allEdgeCodes, ∃ j ∈ nbr i s,
    k = emittedKey cells fcs i s j

/-- Whether consecutive sorted spans abut exactly (each span's max fraction
pair equals the next span's min pair). -/
def spansAbut : List Span → Bool
  | [] => true
  | [_] => true
  | p :: q :: rest => decide (p.2.2 = q.2.1) && spansAbut (q :: rest)

/-- A conforming side: it has no neighbour, or a single strictly coarser
neighbour sharing the side's line, or equal-or-finer neighbours (an
equal-level neighbour spanning the whole side, finer neighbours otherwise)
sharing the side's line whose sorted spans tile the side exactly. -/
abbrev SideOk (cells : List (Nat × Nat)) (fcs : List FractCoords)
    (nbr : Nat → EdgeCode → List Nat) (i : Nat) (s : EdgeCode) : Prop :=
  nbr i s = [] ∨
  ((nbr i s).length = 1 ∧ (nbr i s).getD 0 0 < cells.length ∧
    (cells.getD ((nbr i s).getD 0 0) (0, 0)).1 < (cells.getD i (0, 0)).1 ∧
    selShared (opposite s) (fcs.getD ((nbr i s).getD 0 0) fc0) =
      selShared s (fcs.getD i fc0)) ∨
  (nbr i s ≠ [] ∧
    (∀ j ∈ nbr i s, j < cells.length) ∧
    (∀ j ∈ nbr i s,
      (cells.getD i (0, 0)).1 < (cells.getD j (0, 0)).1 ∨
      ((cells.getD j (0, 0)).1 = (cells.getD i (0, 0)).1 ∧
        selMin s (fcs.getD j fc0) = selMin s (fcs.getD i fc0) ∧
        selMax s (fcs.getD j fc0) = selMax s (fcs.getD i fc0))) ∧
    (∀ j ∈ nbr i s,
      selShared (opposite s) (fcs.getD j fc0) = selShared s (fcs.getD i fc0)) ∧
    ((sortedSpans fcs s (nbr i s)).headD span0).2.1 = selMin s (fcs.getD i fc0) ∧
    ((sortedSpans fcs s (nbr i s)).getLastD span0).2.2 = selMax s (fcs.getD i fc0) ∧
    spansAbut (sortedSpans fcs s (nbr i s)) = true)

/-- The whole-side keys of every cell and side (each cached key is one of
these, which bounds the edge count by `4 * num_cells`). -/
def allSideKeys (fcs : List FractCoords) (n : Nat) : List EdgeKey :=
  ((List.range n) ×ˢ allEdgeCodes).map fun p => sideKey fcs p.1 p.2

/-- The neighbour lists of the two-cell witness mesh: two side-by-side
level-1 cells of a 2-by-1 level grid. -/
def twoCellNbr : Nat → EdgeCode → List Nat := fun i s =>
  match i, s with
  | 0, EdgeCode.east => [1]
  | 1, EdgeCode.west => [0]
  | _, _ => []

/-- The invariant the edge builder maintains on its state: adjacency records
are in bijection with cached keys, keys are never duplicated, and each record
is a boundary key with one cell reference or an interior key with two. -/
def EdgeInv (cells : List (Nat × Nat)) (fcs : List FractCoords)
    (nbr : Nat → EdgeCode → List Nat) (st : EdgeState) : Prop :=
  st.adj.length = st.cache.length ∧ st.cache.Nodup ∧
  ∀ e < st.cache.length,
    (isBoundaryKey fcs cells.length nbr (st.cache.getD e key0) ∧
      refCount (st.adj.getD e (none, none)) = 1) ∨
    (isInteriorKey cells fcs nbr (st.cache.getD e key0) ∧
      refCount (st.adj.getD e (none, none)) = 2)

end GridEdges

end Gridmen

namespace Gridmen

/-! ### Level-geometry lemmas -/

theorem extendLevelInfo_length (p : LevelEntry) (rs : List (Nat × Nat)) :
    (extendLevelInfo p rs).length = rs.length := by
  induction rs generalizing p with
  | nil => rfl
  | cons r rs ih => simp [extendLevelInfo, ih]

theorem mkLevelInfo_length (rules : List (Nat × Nat)) (h : rules ≠ []) :
    (mkLevelInfo rules).length = rules.length := by
  have : rules.dropLast.length = rules.length - 1 := rules.length_dropLast
  have hpos : 0 < rules.length := List.length_pos.mpr h
  simp only [mkLevelInfo, List.length_cons, extendLevelInfo_length, this]
  omega

theorem extendLevelInfo_getD (d : LevelEntry) :
    ∀ (rs : List (Nat × Nat)) (p : LevelEntry) (i : Nat), i < rs.length →
      (extendLevelInfo p rs).getD i d = (rs.take (i + 1)).foldl levelStep p := by
  intro rs
  induction rs with
  | nil => intro p i hi; simp at hi
  | cons r rs ih =>
    intro p i hi
    cases i with
    | zero => simp [extendLevelInfo, List.take]
    | succ i =>
      have hi' : i < rs.length := by simpa using hi
      simp only [extendLevelInfo, List.getD_cons_succ, List.take, List.foldl]
      exact ih _ i hi'

theorem mkLevelInfo_getD (d : LevelEntry) (rules : List (Nat × Nat)) (i : Nat)
    (hi : i < (mkLevelInfo rules).length) :
    (mkLevelInfo rules).getD i d = (rules.dropLast.take i).foldl levelStep ⟨1, 1⟩ := by
  cases i with
  | zero => rfl
  | succ i =>
    have hi' : i < rules.dropLast.length := by
      have := extendLevelInfo_length (⟨1, 1⟩ : LevelEntry) rules.dropLast
      simp only [mkLevelInfo, List.length_cons] at hi
      omega
    simpa only [mkLevelInfo, List.getD_cons_succ] using
      extendLevelInfo_getD d rules.dropLast ⟨1, 1⟩ i hi'

theorem dropLast_getElem? (rules : List (Nat × Nat)) (i : Nat)
    (hi : i < rules.dropLast.length) :
    rules.dropLast[i]? = rules[i]? := by
  rw [List.dropLast_eq_take, List.getElem?_take_of_lt]
  simpa [List.dropLast_eq_take] using hi

/-- The defining relation of the level table: each level's dimensions are the
previous level's multiplied by the subdivision rule at the previous level. -/
theorem mkLevelInfo_succ (d : LevelEntry) (rules : List (Nat × Nat)) (i : Nat)
    (hi : i + 1 < (mkLevelInfo rules).length) :
    (mkLevelInfo rules).getD (i + 1) d =
      levelStep ((mkLevelInfo rules).getD i d) (rules.getD i (1, 1)) := by
  have hlen : i < rules.dropLast.length := by
    have := extendLevelInfo_length (⟨1, 1⟩ : LevelEntry) rules.dropLast
    simp only [mkLevelInfo, List.length_cons] at hi
    omega
  rw [mkLevelInfo_getD d rules (i + 1) hi,
      mkLevelInfo_getD d rules i (Nat.lt_of_succ_lt hi)]
  rw [List.take_succ, List.foldl_append]
  have h2 : rules.dropLast[i]? = some (rules.getD i (1, 1)) := by
    rw [dropLast_getElem? rules i hlen, List.getD_eq_getElem?_getD]
    have : i < rules.length := by
      have := rules.length_dropLast
      omega
    simp [List.getElem?_eq_getElem this]
  simp [h2, List.getD_eq_getElem?_getD]

/-! ### Parent/child index computations -/

/-- Unfolding of `Patch._get_children_global_ids` on an in-range level. -/
theorem Patch.getChildrenGlobalIds_eq (g : Patch.PatchGeom) (l gid : Nat)
    (hl : l < g.level_info.length) :
    Patch.getChildrenGlobalIds g l gid =
      some ((List.range ((g.subdivide_rules.getD l (1, 1)).1 *
          (g.subdivide_rules.getD l (1, 1)).2)).map fun localId =>
        (gid / (g.level_info.getD l ⟨1, 1⟩).width * (g.subdivide_rules.getD l (1, 1)).2 +
            localId / (g.subdivide_rules.getD l (1, 1)).1) *
          ((g.level_info.getD l ⟨1, 1⟩).width * (g.subdivide_rules.getD l (1, 1)).1) +
        (gid % (g.level_info.getD l ⟨1, 1⟩).width * (g.subdivide_rules.getD l (1, 1)).1 +
          localId % (g.subdivide_rules.getD l (1, 1)).1)) := by
  simp [Patch.getChildrenGlobalIds, hl]

/-- `l.get? i` succeeds with the `getD` value on an in-range index. -/
theorem list_get?_eq_getD {α : Type} (l : List α) (i : Nat) (d : α)
    (h : i < l.length) : l.get? i = some (l.getD i d) := by
  simp [List.get?_eq_getElem?, List.getElem?_eq_getElem h, List.getD_eq_getElem?_getD]

/-- Core arithmetic shared by the inverse claim and the merge analysis: the
parent computation applied one level below any child produced by the children
computation recovers the original global id. -/
theorem parent_of_child (g : Patch.PatchGeom) (l gid : Nat)
    (hl : l + 1 < g.level_info.length)
    (hsw : 0 < (g.subdivide_rules.getD l (1, 1)).1)
    (hsh : 0 < (g.subdivide_rules.getD l (1, 1)).2)
    (hgid : gid < (g.level_info.getD l ⟨1, 1⟩).width *
      (g.level_info.getD l ⟨1, 1⟩).height) :
    ∀ cs, Patch.getChildrenGlobalIds g l gid = some cs →
      ∀ c ∈ cs, Patch.getParentGlobalId g (l + 1) c = some gid := by
  intro cs hcs c hc
  -- the rule list is nonempty and `l` is in range of it
  have hinfo_len : g.level_info.length = g.subdivide_rules.length := by
    have hne : g.subdivide_rules ≠ [] := by
      intro hnil
      have hone : g.level_info.length = 1 := by
        simp [Patch.PatchGeom.level_info, mkLevelInfo, hnil, extendLevelInfo]
      omega
    exact mkLevelInfo_length g.subdivide_rules hne
  have hlr : l < g.subdivide_rules.length := by omega
  -- identify the child as the image of one local id
  rw [Patch.getChildrenGlobalIds_eq g l gid (by omega)] at hcs
  rw [Option.some_inj] at hcs
  rw [← hcs] at hc
  obtain ⟨lid, hlid, rfl⟩ := List.mem_map.mp hc
  have hlidN := List.mem_range.mp hlid
  set rule := g.subdivide_rules.getD l (1, 1) with hrule
  set e := g.level_info.getD l ⟨1, 1⟩ with he
  set w := e.width with hwdef
  set sw := rule.1 with hswdef
  set sh := rule.2 with hshdef
  set gu := gid % w with hgu
  set gv := gid / w with hgv
  set i := lid % sw with hidef
  set j := lid / sw with hjdef
  -- the three Python list lookups of `_get_parent_global_id` all succeed
  have h1 : g.level_info.get? (l + 1) =
      some (g.level_info.getD (l + 1) ⟨1, 1⟩) :=
    list_get?_eq_getD _ _ _ hl
  have h2 : g.subdivide_rules.get? (l + 1 - 1) = some rule := by
    rw [hrule]; exact list_get?_eq_getD g.subdivide_rules l (1, 1) hlr
  have h3 : g.level_info.get? (l + 1 - 1) = some e := by
    rw [he]; exact list_get?_eq_getD g.level_info l ⟨1, 1⟩ (by omega)
  -- the child-level width is `w * sw`
  have hsucc : g.level_info.getD (l + 1) ⟨1, 1⟩ = levelStep e rule := by
    rw [he, hrule]
    exact mkLevelInfo_succ ⟨1, 1⟩ g.subdivide_rules l hl
  -- arithmetic facts
  have hw0 : 0 < w := by
    rcases Nat.eq_zero_or_pos w with h0 | h0
    · rw [h0] at hgid; simp at hgid
    · exact h0
  have hguw : gu < w := Nat.mod_lt _ hw0
  have hisw : i < sw := Nat.mod_lt _ hsw
  have hjsh : j < sh := by
    rw [hjdef, Nat.div_lt_iff_lt_mul hsw]
    calc lid < sw * sh := hlidN
    _ = sh * sw := Nat.mul_comm _ _
  have hR : gu * sw + i < w * sw := by
    have ha : gu * sw + i < (gu + 1) * sw := by
      rw [Nat.add_mul, Nat.one_mul]; omega
    have hb : (gu + 1) * sw ≤ w * sw := Nat.mul_le_mul_right sw (by omega)
    omega
  have hmod : ((gv * sh + j) * (w * sw) + (gu * sw + i)) % (w * sw) = gu * sw + i := by
    rw [Nat.mul_comm (gv * sh + j) (w * sw), Nat.mul_add_mod]
    exact Nat.mod_eq_of_lt hR
  have hdiv : ((gv * sh + j) * (w * sw) + (gu * sw + i)) / (w * sw) = gv * sh + j := by
    rw [Nat.mul_comm (gv * sh + j) (w * sw), Nat.mul_add_div (Nat.mul_pos hw0 hsw),
      Nat.div_eq_of_lt hR]
    omega
  have hA : (gv * sh + j) / sh = gv := by
    rw [Nat.mul_comm gv sh, Nat.mul_add_div hsh, Nat.div_eq_of_lt hjsh]
    omega
  have hB : (gu * sw + i) / sw = gu := by
    rw [Nat.mul_comm gu sw, Nat.mul_add_div hsw, Nat.div_eq_of_lt hisw]
    omega
  -- assemble
  simp only [Patch.getParentGlobalId, h1, h2, h3, hsucc, levelStep]
  rw [Option.some_inj]
  rw [hmod, hdiv, hA, hB]
  rw [hgv, hgu, ← hwdef, Nat.div_add_mod']

/-- The first entry of the hooks ancestor walk started at `(l+1, c)` is the
key the patch parent computation produces for `(l+1, c)` (both perform the
same division walk on the same tables). -/
theorem ancestors_head_eq_parent (g : Patch.PatchGeom) (l c p : Nat)
    (h1l : 1 ≤ l)
    (hp : Patch.getParentGlobalId g (l + 1) c = some p) :
    (GridHooks.getAllAncestorKeys g.level_info g.subdivide_rules (l + 1, c)).head? =
      some (l, p) := by
  cases he1 : g.level_info[l + 1]? with
  | none => simp [Patch.getParentGlobalId, he1] at hp
  | some e =>
    cases he2 : g.subdivide_rules[l]? with
    | none => simp [Patch.getParentGlobalId, he1, he2] at hp
    | some rule =>
      cases he3 : g.level_info[l]? with
      | none => simp [Patch.getParentGlobalId, he1, he2, he3] at hp
      | some pe =>
        simp only [Patch.getParentGlobalId, List.get?_eq_getElem?,
          Nat.add_sub_cancel, he1, he2, he3, Option.some_inj] at hp
        obtain ⟨k, rfl⟩ : ∃ k, l = k + 1 := ⟨l - 1, by omega⟩
        have hd1 : g.level_info.getD (k + 1 + 1) ⟨1, 1⟩ = e := by
          rw [List.getD_eq_getElem?_getD, he1]; rfl
        have hd2 : g.subdivide_rules.getD (k + 1) (1, 1) = rule := by
          rw [List.getD_eq_getElem?_getD, he2]; rfl
        have hd3 : g.level_info.getD (k + 1) ⟨1, 1⟩ = pe := by
          rw [List.getD_eq_getElem?_getD, he3]; rfl
        simp only [GridHooks.getAllAncestorKeys, GridHooks.ancestorsFrom,
          hd1, hd2, hd3, List.head?_cons, Option.some_inj]
        exact Prod.ext rfl hp

/-- **C10**: for every level `l` that has a subdivision rule and every global
id valid within level `l`, each child id produced by the children computation
is mapped back to the original id by the parent computation one level deeper;
moreover the hooks copy of the children computation produces the same list,
and (for a non-root cell) the first entry of the hooks ancestor walk from any
child is the original cell. -/
theorem children_parent_inverse (rules : List (Nat × Nat)) (l gid : Nat)
    (hl : l + 1 < (mkLevelInfo rules).length)
    (hsw : 0 < (rules.getD l (1, 1)).1)
    (hsh : 0 < (rules.getD l (1, 1)).2)
    (hgid : gid < ((mkLevelInfo rules).getD l ⟨1, 1⟩).width *
      ((mkLevelInfo rules).getD l ⟨1, 1⟩).height) :
    ∃ cs, Patch.getChildrenGlobalIds ⟨rules⟩ l gid = some cs ∧
      GridHooks.getChildrenGlobalIds l gid (mkLevelInfo rules) rules = cs ∧
      ∀ c ∈ cs, Patch.getParentGlobalId ⟨rules⟩ (l + 1) c = some gid ∧
        (1 ≤ l →
          (GridHooks.getAllAncestorKeys (mkLevelInfo rules) rules (l + 1, c)).head? =
            some (l, gid)) := by
  have hll : l < (mkLevelInfo rules).length := by omega
  refine ⟨_, Patch.getChildrenGlobalIds_eq ⟨rules⟩ l gid hll, ?_, ?_⟩
  · simp [GridHooks.getChildrenGlobalIds, hll, Patch.PatchGeom.level_info]
  · intro c hc
    have hpar := parent_of_child ⟨rules⟩ l gid hl hsw hsh hgid _
      (Patch.getChildrenGlobalIds_eq ⟨rules⟩ l gid hll) c hc
    exact ⟨hpar, fun h1l => ancestors_head_eq_parent ⟨rules⟩ l c gid h1l hpar⟩

/-- Witness for `children_parent_inverse`: level 1 of the `2×2 → 4×4` table,
cell `(1, 2)`. -/
theorem children_parent_inverse_witness :
    (1 + 1 < (mkLevelInfo [(2, 2), (2, 2), (1, 1)]).length) ∧
    (0 < (([(2, 2), (2, 2), (1, 1)] : List (Nat × Nat)).getD 1 (1, 1)).1) ∧
    (0 < (([(2, 2), (2, 2), (1, 1)] : List (Nat × Nat)).getD 1 (1, 1)).2) ∧
    (2 < ((mkLevelInfo [(2, 2), (2, 2), (1, 1)]).getD 1 ⟨1, 1⟩).width *
      ((mkLevelInfo [(2, 2), (2, 2), (1, 1)]).getD 1 ⟨1, 1⟩).height) ∧
    (∃ cs, Patch.getChildrenGlobalIds ⟨[(2, 2), (2, 2), (1, 1)]⟩ 1 2 = some cs ∧
      GridHooks.getChildrenGlobalIds 1 2 (mkLevelInfo [(2, 2), (2, 2), (1, 1)])
        [(2, 2), (2, 2), (1, 1)] = cs ∧
      ∀ c ∈ cs, Patch.getParentGlobalId ⟨[(2, 2), (2, 2), (1, 1)]⟩ (1 + 1) c = some 2 ∧
        (1 ≤ 1 →
          (GridHooks.getAllAncestorKeys (mkLevelInfo [(2, 2), (2, 2), (1, 1)])
            [(2, 2), (2, 2), (1, 1)] (1 + 1, c)).head? = some (1, 2))) :=
  ⟨by decide, by decide, by decide, by decide,
    children_parent_inverse [(2, 2), (2, 2), (1, 1)] 1 2
      (by decide) (by decide) (by decide) (by decide)⟩

/-! ### Cell-store flag invariant -/

namespace Patch

theorem setFlags_inv (store : Store) (keys : List CellKey) (f : CellRow → CellRow)
    (h : StoreInv store)
    (hf : ∀ kv ∈ store, kv.1 ∈ keys →
      (f kv.2).activate = true → (f kv.2).deleted = false) :
    StoreInv (setFlags store keys f) := by
  intro kv hkv
  obtain ⟨kv0, hkv0, heq⟩ := List.mem_map.mp hkv
  by_cases hmem : kv0.1 ∈ keys
  · simp only [hmem, if_pos] at heq
    subst heq
    exact hf kv0 hkv0 hmem
  · simp only [hmem, if_neg, not_false_iff] at heq
    subst heq
    exact h kv0 hkv0

theorem append_inv (s1 s2 : Store) (h1 : StoreInv s1) (h2 : StoreInv s2) :
    StoreInv (s1 ++ s2) := by
  intro kv hkv
  rcases List.mem_append.mp hkv with h | h
  · exact h1 kv h
  · exact h2 kv h

theorem filter_inv (s : Store) (p : CellKey × CellRow → Bool) (h : StoreInv s) :
    StoreInv (s.filter p) :=
  fun kv hkv => h kv (List.mem_of_mem_filter hkv)

/-- **C5, counterexample**: the store holding the single deleted row `(1,0)`
satisfies the invariant, but `merge_cells` on the full (absent) child set of
`(1,0)` activates the parent without clearing its `deleted` flag, leaving a
row with `activate=true ∧ deleted=true`. -/
theorem merge_breaks_activate_deleted_invariant :
    StoreInv [((1, 0), ⟨true, false⟩)] ∧
    mergeCells ⟨[(2, 2), (2, 2), (1, 1)]⟩ [((1, 0), ⟨true, false⟩)]
      [2, 2, 2, 2] [0, 1, 4, 5] = .ok ([((1, 0), ⟨true, true⟩)], [1], [0]) ∧
    ¬ StoreInv [((1, 0), ⟨true, true⟩)] :=
  ⟨by decide, rfl, by decide⟩

/-- `(l.map Prod.fst).zip (l.map Prod.snd)` recovers `l`. -/
theorem zip_map_fst_snd {α β : Type} (l : List (α × β)) :
    (l.map Prod.fst).zip (l.map Prod.snd) = l := by
  induction l with
  | nil => rfl
  | cons a l ih => simp [List.zip, ih]

/-- **C5, amended**: default initialization establishes the invariant
(`activate=true → deleted=false`) and `subdivide_cells`, `delete_cells` and
`restore_cells` preserve it for every store and batch; `merge_cells`
preserves it provided every parent row it activates is not marked deleted
(the source sets `activate=True` on activated parents without clearing
`deleted`, so a deleted parent row violates the invariant — see the
counterexample). -/
theorem store_ops_preserve_invariant (g : PatchGeom) (store : Store)
    (levels gids : List Nat) :
    StoreInv (initializeDefault g) ∧
    (StoreInv store → StoreInv (subdivideCells g store levels gids).1) ∧
    (StoreInv store → StoreInv (deleteCells store levels gids)) ∧
    (StoreInv store → StoreInv (restoreCells store levels gids)) ∧
    (∀ st2 ls2 gs2, StoreInv store →
      mergeCells g store levels gids = .ok (st2, ls2, gs2) →
      (∀ p ∈ ls2.zip gs2, ∀ kv ∈ store, kv.1 = mergeKey p.1 p.2 →
        kv.2.deleted = false) →
      StoreInv st2) := by
  refine ⟨?_, ?_, ?_, ?_, ?_⟩
  · intro kv hkv
    obtain ⟨gid, _, rfl⟩ := List.mem_map.mp hkv
    intro _; rfl
  · intro hinv
    unfold subdivideCells
    dsimp only
    split
    · exact hinv
    · split
      · exact hinv
      · split
        · exact hinv
        · split
          · exact hinv
          · dsimp only
            refine setFlags_inv _ _ _ ?_ ?_
            · refine append_inv _ _ ?_ ?_
              · refine setFlags_inv _ _ _ hinv ?_
                intro kv _ _ _; rfl
              · intro kv hkv
                obtain ⟨k, _, rfl⟩ := List.mem_map.mp hkv
                intro hact; cases hact
            · intro kv _ _ hact; cases hact
  · intro hinv
    unfold deleteCells
    dsimp only
    split
    · exact hinv
    · split
      · exact hinv
      · refine setFlags_inv _ _ _ hinv ?_
        intro kv _ _ hact; cases hact
  · intro hinv
    unfold restoreCells
    dsimp only
    split
    · exact hinv
    · split
      · exact hinv
      · refine setFlags_inv _ _ _ hinv ?_
        intro kv _ _ _; rfl
  · intro st2 ls2 gs2 hinv hmerge hsafe
    unfold mergeCells at hmerge
    dsimp only at hmerge
    split at hmerge
    · injection hmerge with h
      injection h with ha hb
      subst ha
      exact hinv
    · split at hmerge
      · exact Except.noConfusion hmerge
      · split at hmerge
        · injection hmerge with h
          injection h with ha hb
          subst ha
          exact hinv
        · split at hmerge
          · exact Except.noConfusion hmerge
          · split at hmerge
            · injection hmerge with h
              injection h with ha hb
              subst ha
              exact hinv
            · injection hmerge with h
              injection h with ha hb
              injection hb with hb1 hb2
              subst ha hb1 hb2
              rw [zip_map_fst_snd] at hsafe
              refine filter_inv _ _ ?_
              refine setFlags_inv _ _ _ hinv ?_
              intro kv hkv hmem _
              obtain ⟨p, hp, hkey⟩ := List.mem_map.mp hmem
              exact hsafe p hp kv hkv hkey.symm

/-- Witness for `store_ops_preserve_invariant` on the `2×2 → 4×4` geometry:
default initialization, a subdivide, a delete, a restore, and a full merge
of an undeleted parent. -/
theorem store_ops_preserve_invariant_witness :
    StoreInv (initializeDefault ⟨[(2, 2), (2, 2), (1, 1)]⟩) ∧
    StoreInv (subdivideCells ⟨[(2, 2), (2, 2), (1, 1)]⟩
      [((1, 0), ⟨false, true⟩)] [1] [0]).1 ∧
    StoreInv (deleteCells [((1, 0), ⟨false, true⟩)] [1] [0]) ∧
    StoreInv (restoreCells [((1, 0), ⟨true, false⟩)] [1] [0]) ∧
    StoreInv [((1, 0), ⟨false, true⟩)] := by
  have h1 := store_ops_preserve_invariant ⟨[(2, 2), (2, 2), (1, 1)]⟩
    [((1, 0), ⟨false, true⟩)] [1] [0]
  have h2 := store_ops_preserve_invariant ⟨[(2, 2), (2, 2), (1, 1)]⟩
    [((1, 0), ⟨true, false⟩)] [1] [0]
  have h3 := store_ops_preserve_invariant ⟨[(2, 2), (2, 2), (1, 1)]⟩
    [((1, 0), ⟨false, false⟩), ((2, 0), ⟨false, true⟩), ((2, 1), ⟨false, true⟩),
     ((2, 4), ⟨false, true⟩), ((2, 5), ⟨false, true⟩)] [2, 2, 2, 2] [0, 1, 4, 5]
  exact ⟨h1.1, h1.2.1 (by decide), h1.2.2.1 (by decide), h2.2.2.2.1 (by decide),
    h3.2.2.2.2 [((1, 0), ⟨false, true⟩)] [1] [0] (by decide) rfl (by decide)⟩

/-- **C3** (evaluation at the failing input): in the `2×2 → 4×4` geometry,
with the single active, undeleted cell `(1,0)` in the store, `subdivide_cells`
deactivates the parent and returns the four children `(2, {0,1,4,5})`, but the
brand-new child rows are inserted with `activate=false, deleted=false` — the
children are *not* activated, contrary to the claim and to the function's own
docstring ("activating children's activate flags"). -/
theorem subdivide_creates_inactive_children :
    subdivideCells ⟨[(2, 2), (2, 2), (1, 1)]⟩ [((1, 0), ⟨false, true⟩)] [1] [0] =
      ([((1, 0), ⟨false, false⟩), ((2, 0), ⟨false, false⟩), ((2, 1), ⟨false, false⟩),
        ((2, 4), ⟨false, false⟩), ((2, 5), ⟨false, false⟩)],
       [2, 2, 2, 2], [0, 1, 4, 5]) ∧
    ((subdivideCells ⟨[(2, 2), (2, 2), (1, 1)]⟩ [((1, 0), ⟨false, true⟩)]
        [1] [0]).1.lookup ((2 : Nat), (0 : Nat))).map CellRow.activate =
      some false :=
  ⟨rfl, rfl⟩

/-- **C2, counterexample**: `merge_cells` counts candidate *occurrences*, not
distinct children.  In the `2×2 → 4×4` geometry, with parent `(1,0)` inactive
and its four children active in the store, the batch `(2,{0,0,1,4})` (key
`(2,0)` duplicated) carries only the proper child subset `{0,1,4}` of the
expected `{0,1,4,5}`, yet the parent is activated and all four child rows are
removed from the store. -/
theorem merge_duplicate_proper_subset_activates_parent :
    Patch.getChildrenGlobalIds ⟨[(2, 2), (2, 2), (1, 1)]⟩ 1 0 = some [0, 1, 4, 5] ∧
    ([0, 0, 1, 4] : List Nat).toFinset ⊂ ([0, 1, 4, 5] : List Nat).toFinset ∧
    mergeCells ⟨[(2, 2), (2, 2), (1, 1)]⟩
      [((1, 0), ⟨false, false⟩), ((2, 0), ⟨false, true⟩), ((2, 1), ⟨false, true⟩),
       ((2, 4), ⟨false, true⟩), ((2, 5), ⟨false, true⟩)]
      [2, 2, 2, 2] [0, 0, 1, 4] = .ok ([((1, 0), ⟨false, true⟩)], [1], [0]) ∧
    (([((1, 0), ⟨false, true⟩)] : Store).lookup ((1 : Nat), (0 : Nat)) =
      some ⟨false, true⟩) ∧
    (([((1, 0), ⟨false, true⟩)] : Store).lookup ((2 : Nat), (5 : Nat)) = none) :=
  ⟨rfl, by decide, rfl, rfl, rfl⟩

/-- **C7, counterexample**: `merge_cells` computes parents *before* any store
check, so a batch key whose level is outside the level table makes
`_get_parent_global_id` raise `IndexError` even though the key references no
store row at all (here the store is empty). -/
theorem merge_missing_key_raises :
    (([] : Store).lookup ((3 : Nat), (0 : Nat)) = none) ∧
    mergeCells ⟨[(2, 2), (2, 2), (1, 1)]⟩ [] [3] [0] = .error .indexError :=
  ⟨rfl, rfl⟩

/-! ### Merge on a proper child subset -/

theorem zip_replicate_left {α β : Type} (a : α) (l : List β) :
    (List.replicate l.length a).zip l = l.map fun c => (a, c) := by
  induction l with
  | nil => rfl
  | cons b l ih => simp [List.replicate, ih]

theorem mergeParentCandidates_const (g : PatchGeom) (pl pg : Nat) (hpl : 1 ≤ pl)
    (batch : List Nat)
    (hpar : ∀ c ∈ batch, getParentGlobalId g (pl + 1) c = some pg) :
    mergeParentCandidates g (batch.map fun c => (pl + 1, c)) =
      .ok (List.replicate batch.length (pl, pg)) := by
  induction batch with
  | nil => rfl
  | cons c cs ih =>
    have hne : ¬(pl + 1 = 1) := by omega
    simp only [List.map_cons, mergeParentCandidates, hne, if_false,
      hpar c (List.mem_cons_self c cs),
      ih fun x hx => hpar x (List.mem_cons_of_mem c hx)]
    simp [List.replicate]

theorem firstDedupAux_of_mem {α : Type} [DecidableEq α] (a : α) :
    ∀ (n : Nat) (seen : List α), a ∈ seen →
      firstDedupAux (List.replicate n a) seen = [] := by
  intro n
  induction n with
  | zero => intro seen _; rfl
  | succ n ih =>
    intro seen hmem
    simp only [List.replicate, firstDedupAux, hmem, if_pos]
    exact ih seen hmem

theorem firstDedup_replicate {α : Type} [DecidableEq α] (a : α) (n : Nat)
    (hn : 1 ≤ n) : firstDedup (List.replicate n a) = [a] := by
  obtain ⟨m, rfl⟩ : ∃ m, n = m + 1 := ⟨n - 1, by omega⟩
  simp only [List.replicate, firstDedup, firstDedupAux, List.not_mem_nil,
    if_neg, not_false_iff]
  rw [firstDedupAux_of_mem a m (a :: []) (List.mem_cons_self a [])]

theorem mergeActivated_replicate_ne (g : PatchGeom) (store : Store)
    (p : Nat × Nat) (n : Nat) (hn : 1 ≤ n)
    (hrange : p.1 < g.subdivide_rules.length)
    (hne : n ≠ (g.subdivide_rules.getD p.1 (1, 1)).1 *
      (g.subdivide_rules.getD p.1 (1, 1)).2) :
    mergeActivated g store (List.replicate n p) = .ok [] := by
  unfold mergeActivated
  rw [firstDedup_replicate p n hn]
  have hsome : g.subdivide_rules.get? p.1 =
      some (g.subdivide_rules.getD p.1 (1, 1)) :=
    list_get?_eq_getD _ _ _ hrange
  simp only [mergeActivatedAux, hsome]
  rw [List.count_replicate_self]
  rw [if_neg fun h => hne h.1]

/-- **C2, amended**: a `merge_cells` batch of *pairwise-distinct* keys that
are all children of one parent `(pl, pg)` and form a proper subset of that
parent's expected children (fewer than `sub_w * sub_h` of them) leaves the
store completely unchanged and returns empty lists.  (The counterexample
shows the restriction to distinct keys is necessary: duplicated keys are
counted by occurrence; and a batch mixing in other parents' children can
change those other rows.) -/
theorem merge_distinct_proper_subset_is_no_op (rules : List (Nat × Nat))
    (store : Store) (pl pg : Nat) (batch : List Nat)
    (hpl : 1 ≤ pl)
    (hl : pl + 1 < (mkLevelInfo rules).length)
    (hsw : 0 < (rules.getD pl (1, 1)).1)
    (hsh : 0 < (rules.getD pl (1, 1)).2)
    (hpg : pg < ((mkLevelInfo rules).getD pl ⟨1, 1⟩).width *
      ((mkLevelInfo rules).getD pl ⟨1, 1⟩).height)
    (hnd : batch.Nodup)
    (hsub : ∀ c ∈ batch, c ∈ (Patch.getChildrenGlobalIds ⟨rules⟩ pl pg).getD [])
    (hlen : batch.length < (rules.getD pl (1, 1)).1 * (rules.getD pl (1, 1)).2) :
    mergeCells ⟨rules⟩ store (List.replicate batch.length (pl + 1)) batch =
      .ok (store, [], []) := by
  cases batch with
  | nil => rfl
  | cons c0 rest =>
    -- every batch key's parent is (pl, pg)
    have hcs := Patch.getChildrenGlobalIds_eq ⟨rules⟩ pl pg
      (by simpa [Patch.PatchGeom.level_info] using Nat.lt_of_succ_lt hl)
    have hpar : ∀ c ∈ c0 :: rest,
        getParentGlobalId ⟨rules⟩ (pl + 1) c = some pg := by
      intro c hc
      refine parent_of_child ⟨rules⟩ pl pg ?_ hsw hsh hpg _ hcs c ?_
      · simpa [Patch.PatchGeom.level_info] using hl
      · have hmem := hsub c hc
        rw [hcs] at hmem
        simpa using hmem
    have hpc := mergeParentCandidates_const ⟨rules⟩ pl pg hpl (c0 :: rest) hpar
    have hrange : pl < (⟨rules⟩ : PatchGeom).subdivide_rules.length := by
      have hne : rules ≠ [] := by
        intro hnil
        rw [hnil] at hl
        simp [mkLevelInfo, extendLevelInfo] at hl
      have hlen2 := mkLevelInfo_length rules hne
      show pl < rules.length
      omega
    have hact := mergeActivated_replicate_ne ⟨rules⟩ store (pl, pg)
      (c0 :: rest).length (by simp) hrange (Nat.ne_of_lt hlen)
    unfold mergeCells
    rw [if_neg (by simp)]
    rw [zip_replicate_left (pl + 1) (c0 :: rest)]
    simp only [hpc]
    rw [if_neg (by simp [List.replicate])]
    simp only [hact]
    rfl

/-! ### Missing-key behaviour -/

theorem filter_isSome_nil (store : Store) (keys : List CellKey)
    (h : ∀ k ∈ keys, store.lookup k = none) :
    keys.filter (fun k => (store.lookup k).isSome) = [] := by
  rw [List.filter_eq_nil]
  intro k hk
  simp [h k hk]

theorem getParentGlobalId_isSome (g : PatchGeom) (l gid : Nat)
    (h1 : 1 ≤ l) (h2 : l < g.level_info.length) :
    ∃ v, getParentGlobalId g l gid = some v := by
  have e1 := list_get?_eq_getD g.level_info l ⟨1, 1⟩ h2
  have hne : g.subdivide_rules ≠ [] := by
    intro hnil
    have hone : g.level_info.length = 1 := by
      simp [PatchGeom.level_info, mkLevelInfo, hnil, extendLevelInfo]
    omega
  have hlen : g.level_info.length = g.subdivide_rules.length :=
    mkLevelInfo_length g.subdivide_rules hne
  have e2 := list_get?_eq_getD g.subdivide_rules (l - 1) (1, 1) (by omega)
  have e3 := list_get?_eq_getD g.level_info (l - 1) ⟨1, 1⟩ (by omega)
  exact ⟨(gid / (g.level_info.getD l ⟨1, 1⟩).width /
        (g.subdivide_rules.getD (l - 1) (1, 1)).2) *
      (g.level_info.getD (l - 1) ⟨1, 1⟩).width +
      (gid % (g.level_info.getD l ⟨1, 1⟩).width) /
        (g.subdivide_rules.getD (l - 1) (1, 1)).1,
    by simp only [getParentGlobalId, e1, e2, e3]⟩

theorem mergeParentCandidates_ok (g : PatchGeom) (pairs : List (Nat × Nat))
    (h : ∀ p ∈ pairs, 1 ≤ p.1 ∧ p.1 < g.level_info.length) :
    ∃ cs, mergeParentCandidates g pairs = .ok cs ∧
      ∀ q ∈ cs, ∃ p ∈ pairs, ¬ p.1 = 1 ∧ q.1 = p.1 - 1 := by
  induction pairs with
  | nil => exact ⟨[], rfl, by simp⟩
  | cons p ps ih =>
    obtain ⟨cs, hcs, hmem⟩ := ih fun q hq => h q (List.mem_cons_of_mem _ hq)
    by_cases hp1 : p.1 = 1
    · refine ⟨cs, ?_, ?_⟩
      · simp only [mergeParentCandidates, hp1, if_pos, hcs]
      · intro q hq
        obtain ⟨p2, hp2, h2⟩ := hmem q hq
        exact ⟨p2, List.mem_cons_of_mem _ hp2, h2⟩
    · obtain ⟨v, hv⟩ := getParentGlobalId_isSome g p.1 p.2
        (h p (List.mem_cons_self p ps)).1 (h p (List.mem_cons_self p ps)).2
      refine ⟨(p.1 - 1, v) :: cs, ?_, ?_⟩
      · simp only [mergeParentCandidates, hp1, if_false, hv, hcs]
      · intro q hq
        rcases List.mem_cons.mp hq with rfl | hq2
        · exact ⟨p, List.mem_cons_self p ps, hp1, rfl⟩
        · obtain ⟨p2, hp2, h2⟩ := hmem q hq2
          exact ⟨p2, List.mem_cons_of_mem _ hp2, h2⟩

theorem firstDedupAux_subset {α : Type} [DecidableEq α] :
    ∀ (l seen : List α), ∀ a ∈ firstDedupAux l seen, a ∈ l := by
  intro l
  induction l with
  | nil => intro seen a ha; cases ha
  | cons b l ih =>
    intro seen a ha
    simp only [firstDedupAux] at ha
    by_cases hb : b ∈ seen
    · rw [if_pos hb] at ha
      exact List.mem_cons_of_mem _ (ih seen a ha)
    · rw [if_neg hb] at ha
      rcases List.mem_cons.mp ha with rfl | ha2
      · exact List.mem_cons_self a l
      · exact List.mem_cons_of_mem _ (ih (b :: seen) a ha2)

theorem mergeActivatedAux_ok (g : PatchGeom) (store : Store)
    (cands : List (Nat × Nat)) :
    ∀ (sub : List (Nat × Nat)),
      (∀ p ∈ sub, p.1 < g.subdivide_rules.length) →
      ∃ res, mergeActivatedAux g store cands sub = .ok res := by
  intro sub
  induction sub with
  | nil => intro _; exact ⟨[], rfl⟩
  | cons p ps ih =>
    intro h
    obtain ⟨res, hres⟩ := ih fun q hq => h q (List.mem_cons_of_mem _ hq)
    have hsome := list_get?_eq_getD g.subdivide_rules p.1 (1, 1)
      (h p (List.mem_cons_self p ps))
    by_cases hcond : cands.count p = (g.subdivide_rules.getD p.1 (1, 1)).1 *
        (g.subdivide_rules.getD p.1 (1, 1)).2 ∧
        (store.lookup (mergeKey p.1 p.2)).isSome
    · exact ⟨p :: res, by simp only [mergeActivatedAux, hsome, hres, if_pos hcond]⟩
    · exact ⟨res, by simp only [mergeActivatedAux, hsome, hres, if_neg hcond]⟩

theorem mergeActivatedAux_none (g : PatchGeom) (store : Store)
    (cands : List (Nat × Nat)) :
    ∀ (sub : List (Nat × Nat)),
      (∀ p ∈ sub, p.1 < g.subdivide_rules.length) →
      (∀ p ∈ sub, store.lookup (mergeKey p.1 p.2) = none) →
      mergeActivatedAux g store cands sub = .ok [] := by
  intro sub
  induction sub with
  | nil => intro _ _; rfl
  | cons p ps ih =>
    intro hr hn
    have hres := ih (fun q hq => hr q (List.mem_cons_of_mem _ hq))
      (fun q hq => hn q (List.mem_cons_of_mem _ hq))
    have hsome := list_get?_eq_getD g.subdivide_rules p.1 (1, 1)
      (hr p (List.mem_cons_self p ps))
    have hno : ¬(cands.count p = (g.subdivide_rules.getD p.1 (1, 1)).1 *
        (g.subdivide_rules.getD p.1 (1, 1)).2 ∧
        (store.lookup (mergeKey p.1 p.2)).isSome) := by
      intro hc
      rw [hn p (List.mem_cons_self p ps)] at hc
      exact Bool.noConfusion (Option.isSome_none ▸ hc.2)
    simp only [mergeActivatedAux, hsome, hres, if_neg hno]

/-- Parent candidates live one level below some batch key with level ≥ 1,
hence strictly inside the rule table. -/
theorem candidate_level_lt (g : PatchGeom) (pairs cs : List (Nat × Nat))
    (hlv : ∀ p ∈ pairs, 1 ≤ p.1 ∧ p.1 < g.level_info.length)
    (hchar : ∀ q ∈ cs, ∃ p ∈ pairs, ¬ p.1 = 1 ∧ q.1 = p.1 - 1) :
    ∀ q ∈ cs, q.1 < g.subdivide_rules.length := by
  intro q hq
  obtain ⟨p, hp, _, hq1⟩ := hchar q hq
  obtain ⟨h1, h2⟩ := hlv p hp
  have hne : g.subdivide_rules ≠ [] := by
    intro hnil
    have hone : g.level_info.length = 1 := by
      simp [PatchGeom.level_info, mkLevelInfo, hnil, extendLevelInfo]
    omega
  have hlen : g.level_info.length = g.subdivide_rules.length :=
    mkLevelInfo_length g.subdivide_rules hne
  omega

/-- **C7, amended**: `subdivide_cells`, `delete_cells` and `restore_cells`
never raise and are no-ops (empty results, store unchanged) on a batch none
of whose keys exists in the store; `merge_cells`, on a batch whose key
levels all lie inside the level table, never raises, and it returns empty
results with the store unchanged whenever none of its candidate parent rows
exists in the store.  (The counterexample shows `merge_cells` *does* raise
`IndexError` for a missing key whose level is outside the table.) -/
theorem missing_keys_are_no_ops (g : PatchGeom) (store : Store)
    (levels gids : List Nat) :
    ((∀ p ∈ levels.zip gids, store.lookup (batchKey p.1 p.2) = none) →
      subdivideCells g store levels gids = (store, [], []) ∧
      deleteCells store levels gids = store ∧
      restoreCells store levels gids = store) ∧
    ((∀ p ∈ levels.zip gids, 1 ≤ p.1 ∧ p.1 < g.level_info.length) →
      (∃ out, mergeCells g store levels gids = .ok out) ∧
      ∀ cands, mergeParentCandidates g (levels.zip gids) = .ok cands →
        (∀ p ∈ cands, store.lookup (mergeKey p.1 p.2) = none) →
        mergeCells g store levels gids = .ok (store, [], [])) := by
  have hfil : ((∀ p ∈ levels.zip gids, store.lookup (batchKey p.1 p.2) = none) →
      ((levels.zip gids).map fun p => batchKey p.1 p.2).filter
        (fun k => (store.lookup k).isSome) = []) := by
    intro h
    apply filter_isSome_nil
    intro k hk
    obtain ⟨p, hp, rfl⟩ := List.mem_map.mp hk
    exact h p hp
  constructor
  · intro h
    refine ⟨?_, ?_, ?_⟩
    · unfold subdivideCells
      dsimp only
      split
      · rfl
      · rw [hfil h]
        rfl
    · unfold deleteCells
      dsimp only
      rw [hfil h]
      rfl
    · unfold restoreCells
      dsimp only
      split
      · rfl
      · rw [hfil h]
        rfl
  · intro hlv
    obtain ⟨cs, hcs, hchar⟩ := mergeParentCandidates_ok g (levels.zip gids) hlv
    have hsublt := candidate_level_lt g (levels.zip gids) cs hlv hchar
    constructor
    · unfold mergeCells
      split
      · exact ⟨_, rfl⟩
      · simp only [hcs]
        split
        · exact ⟨_, rfl⟩
        · obtain ⟨res, hres⟩ := mergeActivatedAux_ok g store cs (firstDedup cs)
            fun q hq => hsublt q (firstDedupAux_subset cs [] q hq)
          have hact : mergeActivated g store cs = .ok res := hres
          simp only [hact]
          by_cases hres0 : res = []
          · subst hres0
            exact ⟨_, rfl⟩
          · rw [if_neg hres0]
            exact ⟨_, rfl⟩
    · intro cands hcands hnone
      rw [hcs] at hcands
      injection hcands with hcseq
      rw [← hcseq] at hnone
      have hact : mergeActivated g store cs = .ok [] :=
        mergeActivatedAux_none g store cs (firstDedup cs)
          (fun q hq => hsublt q (firstDedupAux_subset cs [] q hq))
          (fun q hq => hnone q (firstDedupAux_subset cs [] q hq))
      unfold mergeCells
      split
      · rfl
      · simp only [hcs]
        split
        · rfl
        · simp only [hact]
          rfl

/-- Witness for `missing_keys_are_no_ops`: the batch key `(2,7)` is absent
from the single-row store, and so is its candidate parent `(1,1)`. -/
theorem missing_keys_are_no_ops_witness :
    (subdivideCells ⟨[(2, 2), (2, 2), (1, 1)]⟩ [((1, 0), ⟨false, true⟩)] [2] [7] =
      ([((1, 0), ⟨false, true⟩)], [], []) ∧
     deleteCells [((1, 0), ⟨false, true⟩)] [2] [7] = [((1, 0), ⟨false, true⟩)] ∧
     restoreCells [((1, 0), ⟨false, true⟩)] [2] [7] = [((1, 0), ⟨false, true⟩)]) ∧
    mergeCells ⟨[(2, 2), (2, 2), (1, 1)]⟩ [((1, 0), ⟨false, true⟩)] [2] [7] =
      .ok ([((1, 0), ⟨false, true⟩)], [], []) := by
  have h := missing_keys_are_no_ops ⟨[(2, 2), (2, 2), (1, 1)]⟩
    [((1, 0), ⟨false, true⟩)] [2] [7]
  exact ⟨h.1 (by decide), (h.2 (by decide)).2 [(1, 1)] rfl (by decide)⟩

/-- Witness for `merge_distinct_proper_subset_is_no_op`: batch `(2,{0,1,4})`,
a proper subset of `(1,0)`'s children `{0,1,4,5}` in the `2×2 → 4×4`
geometry, is a no-op on the store holding the parent and its children. -/
theorem merge_distinct_proper_subset_is_no_op_witness :
    mergeCells ⟨[(2, 2), (2, 2), (1, 1)]⟩
      [((1, 0), ⟨false, false⟩), ((2, 0), ⟨false, true⟩), ((2, 1), ⟨false, true⟩),
       ((2, 4), ⟨false, true⟩), ((2, 5), ⟨false, true⟩)]
      (List.replicate ([0, 1, 4] : List Nat).length (1 + 1)) [0, 1, 4] =
      .ok ([((1, 0), ⟨false, false⟩), ((2, 0), ⟨false, true⟩),
            ((2, 1), ⟨false, true⟩), ((2, 4), ⟨false, true⟩),
            ((2, 5), ⟨false, true⟩)], [], []) :=
  merge_distinct_proper_subset_is_no_op [(2, 2), (2, 2), (1, 1)]
    [((1, 0), ⟨false, false⟩), ((2, 0), ⟨false, true⟩), ((2, 1), ⟨false, true⟩),
     ((2, 4), ⟨false, true⟩), ((2, 5), ⟨false, true⟩)]
    1 0 [0, 1, 4] (by decide) (by decide) (by decide) (by decide) (by decide)
    (by decide) (by decide) (by decide)

/-! ### The concrete scenario of the spec -/

/-- `Patch.__init__` on bounds `[0,0,100,100]` with cell sizes
`[[50,50],[25,25]]` derives the rule table `[(2,2),(2,2),(1,1)]`. -/
theorem scenario_rules_eval :
    mkSubdivideRules [0, 0, 100, 100] [(50, 50), (25, 25)] =
      [(2, 2), (2, 2), (1, 1)] := by
  norm_num [mkSubdivideRules, List.range_succ]
  decide

/-- **C4, counterexample**: with domain bounds `[0,0,100,100]` and cell sizes
`[[50,50],[25,25]]`, level 1 is `2×2` and level 2 is `4×4`; the children of
cell `(1,0)` are `(2,{0,1,4,5})` — row-major ids in the `4×4` level-2 grid —
not `(2,{0,1,2,3})` as the claim states. -/
theorem scenario_children_not_0123 :
    mkSubdivideRules [0, 0, 100, 100] [(50, 50), (25, 25)] =
      [(2, 2), (2, 2), (1, 1)] ∧
    Patch.getChildrenGlobalIds
      ⟨mkSubdivideRules [0, 0, 100, 100] [(50, 50), (25, 25)]⟩ 1 0 =
      some [0, 1, 4, 5] ∧
    ([0, 1, 4, 5] : List Nat).toFinset ≠ ([0, 1, 2, 3] : List Nat).toFinset := by
  refine ⟨scenario_rules_eval, ?_, by decide⟩
  rw [scenario_rules_eval]
  decide

/-- **C4, amended**: in the same scenario level 1 has 2 columns and 2 rows,
subdividing `(1,0)` under rule `(2,2)` yields exactly the children
`(2,{0,1,4,5})`, and their bounding boxes computed from the level geometry
are `[0,0,25,25]`, `[25,0,50,25]`, `[0,25,25,50]` and `[25,25,50,50]`. -/
theorem scenario_level1_children_bboxes :
    ((⟨mkSubdivideRules [0, 0, 100, 100] [(50, 50), (25, 25)]⟩ :
        PatchGeom).level_info.getD 1 ⟨1, 1⟩ = ⟨2, 2⟩) ∧
    ((mkSubdivideRules [0, 0, 100, 100] [(50, 50), (25, 25)]).getD 1 (1, 1) =
      (2, 2)) ∧
    (Patch.getChildrenGlobalIds
      ⟨mkSubdivideRules [0, 0, 100, 100] [(50, 50), (25, 25)]⟩ 1 0 =
      some [0, 1, 4, 5]) ∧
    (getCoordinates [0, 0, 100, 100]
      ⟨mkSubdivideRules [0, 0, 100, 100] [(50, 50), (25, 25)]⟩ 2 0 =
      (0, 0, 25, 25)) ∧
    (getCoordinates [0, 0, 100, 100]
      ⟨mkSubdivideRules [0, 0, 100, 100] [(50, 50), (25, 25)]⟩ 2 1 =
      (25, 0, 50, 25)) ∧
    (getCoordinates [0, 0, 100, 100]
      ⟨mkSubdivideRules [0, 0, 100, 100] [(50, 50), (25, 25)]⟩ 2 4 =
      (0, 25, 25, 50)) ∧
    (getCoordinates [0, 0, 100, 100]
      ⟨mkSubdivideRules [0, 0, 100, 100] [(50, 50), (25, 25)]⟩ 2 5 =
      (25, 25, 50, 50)) := by
  rw [scenario_rules_eval]
  have h2 : (⟨[(2, 2), (2, 2), (1, 1)]⟩ : PatchGeom).level_info.getD 2 ⟨1, 1⟩ =
      ⟨4, 4⟩ := by decide
  refine ⟨by decide, by decide, by decide, ?_, ?_, ?_, ?_⟩ <;>
    · simp only [getCoordinates, h2]
      norm_num

end Patch

/-! ### Conflict resolution (leaf invariant) -/

namespace GridHooks

/-- A key at level 0 or 1 has no ancestors (the walk skips the virtual
root). -/
theorem ancestors_of_low_level (info : List LevelEntry)
    (rules : List (Nat × Nat)) (k : Key) (hk : k.1 ≤ 1) :
    getAllAncestorKeys info rules k = [] := by
  obtain ⟨l, gid⟩ := k
  interval_cases l
  · rfl
  · rfl

theorem conflictStep_subset (info : List LevelEntry) (rules : List (Nat × Nat))
    (s : Finset Key) (level : Nat) : conflictStep info rules s level ⊆ s :=
  Finset.sdiff_subset

theorem conflict_foldl_subset (info : List LevelEntry) (rules : List (Nat × Nat)) :
    ∀ (ls : List Nat) (s : Finset Key),
      ls.foldl (conflictStep info rules) s ⊆ s := by
  intro ls
  induction ls with
  | nil => intro s; exact Finset.Subset.refl s
  | cons l ls ih =>
    intro s
    exact (ih (conflictStep info rules s l)).trans
      (conflictStep_subset info rules s l)

theorem mem_conflictLevels (n l : Nat) :
    l ∈ conflictLevels n ↔ 2 ≤ l ∧ l ≤ n := by
  unfold conflictLevels
  rw [List.mem_reverse, List.mem_range'_1]
  omega

/-- **C1**: after the conflict-resolution pass, the active key set contains
no ancestor/descendant pair: for every key `k` in the result, no ancestor of
`k` (as computed by the repeated integer-division walk of
`_get_all_ancestor_keys`) is in the result — equivalently, no key of the
result has a descendant in the result.  The hypothesis restricts the input
to key levels within the level table, as produced by merging patches. -/
theorem conflict_resolution_leaf_invariant (rules : List (Nat × Nat))
    (s0 : Finset Key)
    (hs : ∀ k ∈ s0, k.1 ≤ (mkLevelInfo rules).length) :
    ∀ k ∈ resolveConflicts (mkLevelInfo rules) rules s0,
      ∀ a ∈ getAllAncestorKeys (mkLevelInfo rules) rules k,
        a ∉ resolveConflicts (mkLevelInfo rules) rules s0 := by
  intro k hk a ha hcontra
  by_cases hk1 : k.1 ≤ 1
  · rw [ancestors_of_low_level (mkLevelInfo rules) rules k hk1] at ha
    cases ha
  · have hk0 : k ∈ s0 :=
      conflict_foldl_subset (mkLevelInfo rules) rules _ s0 hk
    have hkn := hs k hk0
    have hmem : k.1 ∈ conflictLevels (mkLevelInfo rules).length :=
      (mem_conflictLevels _ _).mpr ⟨by omega, hkn⟩
    obtain ⟨pre, post, hsplit⟩ := List.append_of_mem hmem
    have hres : resolveConflicts (mkLevelInfo rules) rules s0 =
        post.foldl (conflictStep (mkLevelInfo rules) rules)
          (conflictStep (mkLevelInfo rules) rules
            (pre.foldl (conflictStep (mkLevelInfo rules) rules) s0) k.1) := by
      rw [resolveConflicts, hsplit, List.foldl_append, List.foldl_cons]
    rw [hres] at hk hcontra
    have hk2 : k ∈ conflictStep (mkLevelInfo rules) rules
        (pre.foldl (conflictStep (mkLevelInfo rules) rules) s0) k.1 :=
      conflict_foldl_subset (mkLevelInfo rules) rules post _ hk
    have hk1s : k ∈ pre.foldl (conflictStep (mkLevelInfo rules) rules) s0 :=
      (Finset.mem_sdiff.mp hk2).1
    have haRem : a ∈ ancestorsToRemove (mkLevelInfo rules) rules
        (pre.foldl (conflictStep (mkLevelInfo rules) rules) s0) k.1 := by
      apply Finset.mem_biUnion.mpr
      exact ⟨k, Finset.mem_filter.mpr ⟨hk1s, rfl⟩, List.mem_toFinset.mpr ha⟩
    have ha2 : a ∉ conflictStep (mkLevelInfo rules) rules
        (pre.foldl (conflictStep (mkLevelInfo rules) rules) s0) k.1 :=
      fun hmem2 => (Finset.mem_sdiff.mp hmem2).2 haRem
    exact ha2 (conflict_foldl_subset (mkLevelInfo rules) rules post _ hcontra)

/-- Witness for `conflict_resolution_leaf_invariant`: the set
`{(1,0), (2,0), (2,5)}` (where `(1,0)` is an ancestor of `(2,0)`) under the
`2×2 → 4×4` table. -/
theorem conflict_resolution_leaf_invariant_witness :
    (∀ k ∈ ({(1, 0), (2, 0), (2, 5)} : Finset Key),
      k.1 ≤ (mkLevelInfo [(2, 2), (2, 2), (1, 1)]).length) ∧
    (∀ k ∈ resolveConflicts (mkLevelInfo [(2, 2), (2, 2), (1, 1)])
        [(2, 2), (2, 2), (1, 1)] ({(1, 0), (2, 0), (2, 5)} : Finset Key),
      ∀ a ∈ getAllAncestorKeys (mkLevelInfo [(2, 2), (2, 2), (1, 1)])
          [(2, 2), (2, 2), (1, 1)] k,
        a ∉ resolveConflicts (mkLevelInfo [(2, 2), (2, 2), (1, 1)])
          [(2, 2), (2, 2), (1, 1)] ({(1, 0), (2, 0), (2, 5)} : Finset Key)) :=
  ⟨by decide, conflict_resolution_leaf_invariant [(2, 2), (2, 2), (1, 1)]
    ({(1, 0), (2, 0), (2, 5)} : Finset Key) (by decide)⟩

/-- **C6** (evaluation at the failing input): on the `2×2 → 4×4` mesh in
which cell `(1,1)` has been refined (active set
`{(1,0),(1,2),(1,3)} ∪ (2,{2,3,6,7})`) and with `grading_threshold = 0`,
the balancing loop finds the nonempty risk set `{(1,0),(1,3)}` — so
`_refine_risk_cells` is reached — but `assembly` (hooks.py:1357) passes
`(risk_cells, meta_level_info, subdivide_rules)` to a function whose
signature (hooks.py:577) is `(risk_cells, subdivide_rules,
meta_level_info)`; with the tables swapped the children helper indexes a
`[sub_w, sub_h]` list with the string `'width'` and raises `TypeError`, so
balancing crashes instead of refining.  With the arguments in signature
order the same call would return the risk cells' children. -/
theorem risk_refinement_swapped_arguments_crash :
    findRiskCells 10 0
      ({(1, 0), (1, 2), (1, 3), (2, 2), (2, 3), (2, 6), (2, 7)} : Finset Key)
      [(2, 2), (2, 2), (1, 1)] (mkLevelInfo [(2, 2), (2, 2), (1, 1)]) =
      ({(1, 0), (1, 3)} : Finset Key) ∧
    refineRiskCellsDyn [(1, 0), (1, 3)]
      (toLevelDicts (mkLevelInfo [(2, 2), (2, 2), (1, 1)]))
      (toRulePairs [(2, 2), (2, 2), (1, 1)]) = .error .typeError ∧
    refineRiskCellsDyn [(1, 0), (1, 3)]
      (toRulePairs [(2, 2), (2, 2), (1, 1)])
      (toLevelDicts (mkLevelInfo [(2, 2), (2, 2), (1, 1)])) =
      .ok [(2, 0), (2, 1), (2, 4), (2, 5), (2, 10), (2, 11), (2, 14), (2, 15)] := by
  refine ⟨by decide, rfl, rfl⟩

end GridHooks

/-! ### Block partitioner -/

namespace Grid

theorem recursiveSplit_perm (cap : Nat) :
    ∀ (fuel : Nat) (elements : List HydroElement) (bounds : Bounds)
      (blocks : List (List HydroElement × Bounds)),
      recursiveSplit cap fuel elements bounds = some blocks →
      ((blocks.map Prod.fst).flatten).Perm elements := by
  intro fuel
  induction fuel with
  | zero =>
    intro els bounds blocks h
    exact Option.noConfusion h
  | succ fuel ih =>
    intro els bounds blocks h
    have hguard : ∀ (l : List HydroElement) (b : Bounds)
        (r : List (List HydroElement × Bounds)),
        (if l = [] then some [] else recursiveSplit cap fuel l b) = some r →
        ((r.map Prod.fst).flatten).Perm l := by
      intro l b r hr
      by_cases hl : l = []
      · rw [if_pos hl] at hr
        injection hr with hr
        subst hl
        rw [← hr]
        rfl
      · rw [if_neg hl] at hr
        exact ih l b r hr
    unfold recursiveSplit at h
    split at h
    · injection h with h
      subst h
      simp
    · dsimp only at h
      split at h
      · split at h
        · rename_i r1 r2 h1 h2
          injection h with h
          subst h
          have hp1 := hguard _ _ _ h1
          have hp2 := hguard _ _ _ h2
          rw [List.map_append, List.flatten_append]
          exact (hp1.append hp2).trans (List.filter_append_perm _ els)
        · exact Option.noConfusion h
      · split at h
        · rename_i r1 r2 h1 h2
          injection h with h
          subst h
          have hp1 := hguard _ _ _ h1
          have hp2 := hguard _ _ _ h2
          rw [List.map_append, List.flatten_append]
          exact (hp1.append hp2).trans (List.filter_append_perm _ els)
        · exact Option.noConfusion h

/-- **C9**: whenever the recursive bisection completes, every input element
is placed in exactly one produced block — the concatenation of the blocks'
element lists is a permutation of the input — and therefore the per-block
counts recorded in the manifest sum to the total input element count. -/
theorem block_split_partitions (cap fuel : Nat) (elements : List HydroElement)
    (blocks : List (List HydroElement × Bounds))
    (h : processBlocks cap fuel elements = some blocks) :
    ((blocks.map Prod.fst).flatten).Perm elements ∧
    (blocks.map fun b => b.1.length).sum = elements.length := by
  have hperm : ((blocks.map Prod.fst).flatten).Perm elements := by
    unfold processBlocks at h
    split at h
    · rename_i hels
      injection h with h
      subst h
      subst hels
      rfl
    · exact recursiveSplit_perm cap fuel elements _ blocks h
  refine ⟨hperm, ?_⟩
  have hlen := hperm.length_eq
  rw [List.length_flatten, List.map_map] at hlen
  exact hlen

/-- Witness for `block_split_partitions`: two elements under the default
cap form a single block covering both. -/
theorem block_split_partitions_witness :
    ((([([(⟨0, 0, 1, 1⟩ : HydroElement), ⟨1, 0, 2, 1⟩],
        processGlobalBounds [⟨0, 0, 1, 1⟩, ⟨1, 0, 2, 1⟩])] :
      List (List HydroElement × Bounds)).map Prod.fst).flatten).Perm
      [⟨0, 0, 1, 1⟩, ⟨1, 0, 2, 1⟩] ∧
    (([([(⟨0, 0, 1, 1⟩ : HydroElement), ⟨1, 0, 2, 1⟩],
        processGlobalBounds [⟨0, 0, 1, 1⟩, ⟨1, 0, 2, 1⟩])] :
      List (List HydroElement × Bounds)).map fun b => b.1.length).sum =
      ([⟨0, 0, 1, 1⟩, ⟨1, 0, 2, 1⟩] : List HydroElement).length :=
  block_split_partitions MAX_BLOCKS_SIZE (0 + 1)
    [⟨0, 0, 1, 1⟩, ⟨1, 0, 2, 1⟩] _
    (by simp [processBlocks, recursiveSplit, MAX_BLOCKS_SIZE])

end Grid

namespace GridEdges

/-- Every side code is in the enumeration of the four codes. -/
theorem mem_allEdgeCodes (s : EdgeCode) : s ∈ allEdgeCodes := by
  cases s <;> simp [allEdgeCodes]

/-- Opposite sides vary along the same axis: same direction bit. -/
theorem axisDir_opposite (s : EdgeCode) : axisDir (opposite s) = axisDir s := by
  cases s <;> rfl

/-- Opposite sides vary along the same axis: same min selector. -/
theorem selMin_opposite (s : EdgeCode) (fc : FractCoords) :
    selMin (opposite s) fc = selMin s fc := by
  cases s <;> rfl

/-- Opposite sides vary along the same axis: same max selector. -/
theorem selMax_opposite (s : EdgeCode) (fc : FractCoords) :
    selMax (opposite s) fc = selMax s fc := by
  cases s <;> rfl

/-- The cache update of `_get_edge_index` preserves the builder invariant,
only grows the cache, and leaves the emitted key cached, provided the key is
a boundary key emitted with `cell_key_b = None` or an interior key emitted
with a real neighbour. -/
theorem getEdgeIndexSt_spec (cells : List (Nat × Nat)) (fcs : List FractCoords)
    (nbr : Nat → EdgeCode → List Nat) (st : EdgeState) (a : Nat) (b : Option Nat)
    (dir : Nat) (minF maxF sharedF : Frac) (c : EdgeCode)
    (hinv : EdgeInv cells fcs nbr st)
    (hcls : (b = none ∧
        isBoundaryKey fcs cells.length nbr (mkEdgeKey dir minF maxF sharedF)) ∨
      ((∃ jj, b = some jj) ∧
        isInteriorKey cells fcs nbr (mkEdgeKey dir minF maxF sharedF))) :
    EdgeInv cells fcs nbr (getEdgeIndexSt st a b dir minF maxF sharedF c) ∧
    st.cache ⊆ (getEdgeIndexSt st a b dir minF maxF sharedF c).cache ∧
    mkEdgeKey dir minF maxF sharedF ∈
      (getEdgeIndexSt st a b dir minF maxF sharedF c).cache := by
  unfold getEdgeIndexSt
  dsimp only
  by_cases hmem : mkEdgeKey dir minF maxF sharedF ∈ st.cache
  · rw [if_pos hmem]
    exact ⟨hinv, fun k hk => hk, hmem⟩
  · rw [if_neg hmem]
    obtain ⟨hlen, hnodup, hcl⟩ := hinv
    refine ⟨⟨?_, ?_, ?_⟩, ?_, ?_⟩
    · simp [hlen]
    · refine List.nodup_append.mpr ⟨hnodup, List.nodup_singleton _, ?_⟩
      intro x hx hx'
      simp only [List.mem_singleton] at hx'
      subst hx'
      exact hmem hx
    · intro e he
      simp only [List.length_append, List.length_singleton] at he
      by_cases helt : e < st.cache.length
      · rw [List.getD_append _ _ _ _ helt, List.getD_append _ _ _ _ (by omega)]
        exact hcl e helt
      · have he' : e = st.cache.length := by omega
        subst he'
        rw [List.getD_append_right _ _ _ _ (le_refl _),
          List.getD_append_right _ _ _ _ (by omega), Nat.sub_self, hlen, Nat.sub_self]
        simp only [List.getD_cons_zero]
        rcases hcls with ⟨hb, hk⟩ | ⟨⟨jj, hb⟩, hk⟩
        · subst hb
          refine Or.inl ⟨hk, ?_⟩
          by_cases hc : c = EdgeCode.north ∨ c = EdgeCode.west
          · rw [if_pos hc]; rfl
          · rw [if_neg hc]; rfl
        · subst hb
          refine Or.inr ⟨hk, ?_⟩
          by_cases hc : c = EdgeCode.north ∨ c = EdgeCode.west
          · rw [if_pos hc]; rfl
          · rw [if_neg hc]; rfl
    · intro k hk
      exact List.mem_append_left _ hk
    · exact List.mem_append_right _ (List.mem_singleton_self _)

/-- A cell-only emission with a boundary key preserves the invariant, grows
the cache, and caches the key. -/
theorem emitGap_spec (cells : List (Nat × Nat)) (fcs : List FractCoords)
    (nbr : Nat → EdgeCode → List Nat) (st : EdgeState) (ci : Nat)
    (dir : Nat) (minF maxF sharedF : Frac) (code : EdgeCode)
    (hinv : EdgeInv cells fcs nbr st)
    (hk : isBoundaryKey fcs cells.length nbr (mkEdgeKey dir minF maxF sharedF)) :
    EdgeInv cells fcs nbr (emitGap st ci dir minF maxF sharedF code) ∧
    st.cache ⊆ (emitGap st ci dir minF maxF sharedF code).cache ∧
    mkEdgeKey dir minF maxF sharedF ∈
      (emitGap st ci dir minF maxF sharedF code).cache := by
  have h := getEdgeIndexSt_spec cells fcs nbr st ci none dir minF maxF sharedF code
    hinv (Or.inl ⟨rfl, hk⟩)
  exact ⟨h.1, h.2.1, h.2.2⟩

/-- A neighbour-span emission with an interior key preserves the invariant,
grows the cache, and caches the key. -/
theorem emitSpan_spec (cells : List (Nat × Nat)) (fcs : List FractCoords)
    (nbr : Nat → EdgeCode → List Nat) (st : EdgeState) (ci : Nat)
    (dir : Nat) (sharedF : Frac) (code op : EdgeCode) (p : Span)
    (hinv : EdgeInv cells fcs nbr st)
    (hk : isInteriorKey cells fcs nbr (mkEdgeKey dir p.2.1 p.2.2 sharedF)) :
    EdgeInv cells fcs nbr (emitSpan st ci dir sharedF code op p) ∧
    st.cache ⊆ (emitSpan st ci dir sharedF code op p).cache ∧
    mkEdgeKey dir p.2.1 p.2.2 sharedF ∈
      (emitSpan st ci dir sharedF code op p).cache := by
  have h := getEdgeIndexSt_spec cells fcs nbr st ci (some p.1) dir p.2.1 p.2.2
    sharedF code hinv (Or.inr ⟨⟨p.1, rfl⟩, hk⟩)
  exact ⟨h.1, h.2.1, h.2.2⟩

/-- The neighbour-span loop preserves the invariant, grows the cache, and
caches every span's key, provided the spans abut (no gap segment fires) and
every span key is interior. -/
theorem spanLoop_spec (cells : List (Nat × Nat)) (fcs : List FractCoords)
    (nbr : Nat → EdgeCode → List Nat) (ci : Nat) (dir : Nat) (sharedF : Frac)
    (code op : EdgeCode) (l : List Span) :
    ∀ st : EdgeState, EdgeInv cells fcs nbr st →
    (∀ p ∈ l, isInteriorKey cells fcs nbr (mkEdgeKey dir p.2.1 p.2.2 sharedF)) →
    spansAbut l = true →
    EdgeInv cells fcs nbr (spanLoop st ci dir sharedF code op l) ∧
    st.cache ⊆ (spanLoop st ci dir sharedF code op l).cache ∧
    ∀ p ∈ l, mkEdgeKey dir p.2.1 p.2.2 sharedF ∈
      (spanLoop st ci dir sharedF code op l).cache := by
  induction l with
  | nil =>
    intro st hinv _ _
    exact ⟨hinv, fun k hk => hk, by intro p hp; cases hp⟩
  | cons p tail ih =>
    cases tail with
    | nil =>
      intro st hinv hint _
      simp only [spanLoop]
      have h := emitSpan_spec cells fcs nbr st ci dir sharedF code op p hinv
        (hint p (List.mem_singleton_self p))
      refine ⟨h.1, h.2.1, ?_⟩
      intro q hq
      simp only [List.mem_singleton] at hq
      subst hq
      exact h.2.2
    | cons q rest =>
      intro st hinv hint hchain
      simp only [spanLoop]
      simp only [spansAbut, Bool.and_eq_true, decide_eq_true_eq] at hchain
      have hre : ratioEq p.2.2 q.2.1 := by
        rw [hchain.1]
      rw [if_pos hre]
      have h1 := emitSpan_spec cells fcs nbr st ci dir sharedF code op p hinv
        (hint p (List.mem_cons_self p _))
      have h2 := ih (emitSpan st ci dir sharedF code op p) h1.1
        (fun r hr => hint r (List.mem_cons_of_mem p hr))
        hchain.2
      refine ⟨h2.1, fun k hk => h2.2.1 (h1.2.1 hk), ?_⟩
      intro r hr
      rcases List.mem_cons.mp hr with hr | hr
      · subst hr
        exact h2.2.1 h1.2.2
      · exact h2.2.2 r hr

/-- Processing one conforming side of a cell preserves the invariant, grows
the cache, and caches the side's boundary key (no neighbour) or every
per-neighbour key. -/
theorem calcSideEdges_spec (cells : List (Nat × Nat)) (fcs : List FractCoords)
    (nbr : Nat → EdgeCode → List Nat) (i : Nat) (s : EdgeCode) (st : EdgeState)
    (hi : i < cells.length)
    (hside : SideOk cells fcs nbr i s)
    (hinv : EdgeInv cells fcs nbr st) :
    EdgeInv cells fcs nbr
      (calcSideEdges st cells fcs i (cells.getD i (0, 0)).1 (nbr i s) s) ∧
    st.cache ⊆
      (calcSideEdges st cells fcs i (cells.getD i (0, 0)).1 (nbr i s) s).cache ∧
    (nbr i s = [] → sideKey fcs i s ∈
      (calcSideEdges st cells fcs i (cells.getD i (0, 0)).1 (nbr i s) s).cache) ∧
    (∀ j ∈ nbr i s, emittedKey cells fcs i s j ∈
      (calcSideEdges st cells fcs i (cells.getD i (0, 0)).1 (nbr i s) s).cache) := by
  rcases hside with hempty | ⟨hlen1, hjbd, hjlev, hjsh⟩ |
    ⟨hne, hbd, hlev, hsh, hhead, hlast, hchain⟩
  · -- no neighbour: the whole side is a boundary emission
    rw [hempty]
    simp only [calcSideEdges]
    have hb : isBoundaryKey fcs cells.length nbr (sideKey fcs i s) :=
      ⟨i, List.mem_range.mpr hi, s, mem_allEdgeCodes s, hempty, rfl⟩
    have h := emitGap_spec cells fcs nbr st i (axisDir s)
      (selMin s (fcs.getD i fc0)) (selMax s (fcs.getD i fc0))
      (selShared s (fcs.getD i fc0)) s hinv hb
    refine ⟨h.1, h.2.1, fun _ => h.2.2, ?_⟩
    intro j hj
    cases hj
  · -- a single coarser neighbour: the whole side against that neighbour
    obtain ⟨j, hns⟩ := List.length_eq_one.mp hlen1
    rw [hns] at hjbd hjlev hjsh ⊢
    simp only [List.getD_cons_zero] at hjbd hjlev hjsh
    simp only [calcSideEdges]
    rw [if_pos ⟨trivial, hjlev⟩]
    have hik : isInteriorKey cells fcs nbr
        (mkEdgeKey (axisDir s) (selMin s (fcs.getD i fc0))
          (selMax s (fcs.getD i fc0)) (selShared s (fcs.getD i fc0))) := by
      refine ⟨i, List.mem_range.mpr hi, s, mem_allEdgeCodes s, j, ?_, ?_⟩
      · rw [hns]
        exact List.mem_singleton_self j
      · unfold emittedKey
        rw [if_pos hjlev]
        rfl
    have h := emitSpan_spec cells fcs nbr st i (axisDir s)
      (selShared s (fcs.getD i fc0)) s (opposite s)
      (j, selMin s (fcs.getD i fc0), selMax s (fcs.getD i fc0)) hinv hik
    refine ⟨h.1, h.2.1, ?_, ?_⟩
    · intro hX
      exact absurd hX (List.cons_ne_nil j [])
    · intro j' hj'
      simp only [List.mem_singleton] at hj'
      subst hj'
      have heq : emittedKey cells fcs i s j' =
          mkEdgeKey (axisDir s) (selMin s (fcs.getD i fc0))
            (selMax s (fcs.getD i fc0)) (selShared s (fcs.getD i fc0)) := by
        unfold emittedKey
        rw [if_pos hjlev]
        rfl
      rw [heq]
      exact h.2.2
  · -- equal-or-finer neighbours: per-neighbour spans, no gap fires
    rcases hns : nbr i s with _ | ⟨j, rest⟩
    · exact absurd hns hne
    rw [hns] at hbd hlev hsh hhead hlast hchain
    simp only [calcSideEdges]
    have hcond : ¬(rest = [] ∧ (cells.getD j (0, 0)).1 < (cells.getD i (0, 0)).1) := by
      rintro ⟨_, hjlt⟩
      rcases hlev j (List.mem_cons_self j rest) with hgt | ⟨heq, _, _⟩
      · omega
      · omega
    rw [if_neg hcond]
    have hre1 : ratioEq (selMin s (fcs.getD i fc0))
        ((sortedSpans fcs s (j :: rest)).headD span0).2.1 := by
      rw [hhead]
    rw [if_pos hre1]
    have hint : ∀ p ∈ sortedSpans fcs s (j :: rest), isInteriorKey cells fcs nbr
        (mkEdgeKey (axisDir s) p.2.1 p.2.2 (selShared s (fcs.getD i fc0))) := by
      intro p hp
      have hp' : p ∈ (j :: rest).map
          (fun k => (k, selMin s (fcs.getD k fc0), selMax s (fcs.getD k fc0))) :=
        (List.perm_insertionSort spanLe _).mem_iff.mp hp
      obtain ⟨k, hkmem, rfl⟩ := List.mem_map.mp hp'
      refine ⟨i, List.mem_range.mpr hi, s, mem_allEdgeCodes s, k,
        by rw [hns]; exact hkmem, ?_⟩
      unfold emittedKey
      rw [if_neg (by rcases hlev k hkmem with hgt | ⟨heq, _, _⟩ <;> omega)]
    have hsp := spanLoop_spec cells fcs nbr i (axisDir s)
      (selShared s (fcs.getD i fc0)) s (opposite s)
      (sortedSpans fcs s (j :: rest)) st hinv hint hchain
    have hre2 : ratioEq (selMax s (fcs.getD i fc0))
        ((sortedSpans fcs s (j :: rest)).getLastD span0).2.2 := by
      rw [hlast]
    rw [if_pos hre2]
    refine ⟨hsp.1, hsp.2.1, ?_, ?_⟩
    · intro hX
      exact absurd hX (List.cons_ne_nil j rest)
    · intro j' hj'
      have hsp_mem : (j', selMin s (fcs.getD j' fc0), selMax s (fcs.getD j' fc0)) ∈
          sortedSpans fcs s (j :: rest) := by
        apply (List.perm_insertionSort spanLe _).mem_iff.mpr
        exact List.mem_map.mpr ⟨j', hj', rfl⟩
      have hkey := hsp.2.2 _ hsp_mem
      have heq : emittedKey cells fcs i s j' =
          mkEdgeKey (axisDir s) (selMin s (fcs.getD j' fc0))
            (selMax s (fcs.getD j' fc0)) (selShared s (fcs.getD i fc0)) := by
        unfold emittedKey
        rw [if_neg (by rcases hlev j' hj' with hgt | ⟨heq, _, _⟩ <;> omega)]
      rw [heq]
      exact hkey

/-- Processing all four sides of a conforming cell preserves the invariant,
grows the cache, and caches each side's keys. -/
theorem processCell_spec (cells : List (Nat × Nat)) (fcs : List FractCoords)
    (nbr : Nat → EdgeCode → List Nat) (i : Nat) (st : EdgeState)
    (hi : i < cells.length)
    (hconf : ∀ s ∈ allEdgeCodes, SideOk cells fcs nbr i s)
    (hinv : EdgeInv cells fcs nbr st) :
    EdgeInv cells fcs nbr (processCell cells fcs nbr st i) ∧
    st.cache ⊆ (processCell cells fcs nbr st i).cache ∧
    ∀ s ∈ allEdgeCodes,
      (nbr i s = [] →
        sideKey fcs i s ∈ (processCell cells fcs nbr st i).cache) ∧
      (∀ j ∈ nbr i s,
        emittedKey cells fcs i s j ∈ (processCell cells fcs nbr st i).cache) := by
  unfold processCell
  dsimp only
  have h1 := calcSideEdges_spec cells fcs nbr i .north st hi
    (hconf _ (mem_allEdgeCodes _)) hinv
  have h2 := calcSideEdges_spec cells fcs nbr i .west _ hi
    (hconf _ (mem_allEdgeCodes _)) h1.1
  have h3 := calcSideEdges_spec cells fcs nbr i .south _ hi
    (hconf _ (mem_allEdgeCodes _)) h2.1
  have h4 := calcSideEdges_spec cells fcs nbr i .east _ hi
    (hconf _ (mem_allEdgeCodes _)) h3.1
  refine ⟨h4.1, ?_, ?_⟩
  · intro k hk
    exact h4.2.1 (h3.2.1 (h2.2.1 (h1.2.1 hk)))
  · intro s _
    cases s with
    | north =>
      exact ⟨fun he => h4.2.1 (h3.2.1 (h2.2.1 (h1.2.2.1 he))),
        fun j hj => h4.2.1 (h3.2.1 (h2.2.1 (h1.2.2.2 j hj)))⟩
    | west =>
      exact ⟨fun he => h4.2.1 (h3.2.1 (h2.2.2.1 he)),
        fun j hj => h4.2.1 (h3.2.1 (h2.2.2.2 j hj))⟩
    | south =>
      exact ⟨fun he => h4.2.1 (h3.2.2.1 he),
        fun j hj => h4.2.1 (h3.2.2.2 j hj)⟩
    | east =>
      exact ⟨h4.2.2.1, h4.2.2.2⟩

/-- Folding the per-cell body over any list of conforming in-range cell
indices preserves the invariant, grows the cache, and caches every side's
keys for every processed cell. -/
theorem calcFold_spec (cells : List (Nat × Nat)) (fcs : List FractCoords)
    (nbr : Nat → EdgeCode → List Nat) (l : List Nat) :
    ∀ st : EdgeState,
    (∀ i ∈ l, i < cells.length) →
    (∀ i ∈ l, ∀ s ∈ allEdgeCodes, SideOk cells fcs nbr i s) →
    EdgeInv cells fcs nbr st →
    EdgeInv cells fcs nbr (l.foldl (processCell cells fcs nbr) st) ∧
    st.cache ⊆ (l.foldl (processCell cells fcs nbr) st).cache ∧
    ∀ i ∈ l, ∀ s ∈ allEdgeCodes,
      (nbr i s = [] →
        sideKey fcs i s ∈ (l.foldl (processCell cells fcs nbr) st).cache) ∧
      (∀ j ∈ nbr i s, emittedKey cells fcs i s j ∈
        (l.foldl (processCell cells fcs nbr) st).cache) := by
  induction l with
  | nil =>
    intro st _ _ hinv
    exact ⟨hinv, fun k hk => hk, by intro i hi; cases hi⟩
  | cons a l ih =>
    intro st hrange hconf hinv
    simp only [List.foldl_cons]
    have h1 := processCell_spec cells fcs nbr a st
      (hrange a (List.mem_cons_self a l))
      (hconf a (List.mem_cons_self a l)) hinv
    have h2 := ih (processCell cells fcs nbr st a)
      (fun i hi => hrange i (List.mem_cons_of_mem a hi))
      (fun i hi => hconf i (List.mem_cons_of_mem a hi)) h1.1
    refine ⟨h2.1, fun k hk => h2.2.1 (h1.2.1 hk), ?_⟩
    intro i hi s hs
    rcases List.mem_cons.mp hi with hi | hi
    · subst hi
      exact ⟨fun he => h2.2.1 ((h1.2.2 s hs).1 he),
        fun j hj => h2.2.1 ((h1.2.2 s hs).2 j hj)⟩
    · exact h2.2.2 i hi s hs

/-- `allSideKeys` has exactly four entries per cell. -/
theorem allSideKeys_length (fcs : List FractCoords) (n : Nat) :
    (allSideKeys fcs n).length = 4 * n := by
  simp [allSideKeys, List.length_product, allEdgeCodes, Nat.mul_comm]

/-- Every in-range whole-side key is listed in `allSideKeys`. -/
theorem sideKey_mem_allSideKeys (fcs : List FractCoords) (n i : Nat)
    (s : EdgeCode) (hi : i < n) : sideKey fcs i s ∈ allSideKeys fcs n := by
  unfold allSideKeys
  exact List.mem_map.mpr ⟨(i, s),
    List.mem_product.mpr ⟨List.mem_range.mpr hi, mem_allEdgeCodes s⟩, rfl⟩

/-- Under conformity, every interior key is the whole-side key of one of the
two cells it separates. -/
theorem interiorKey_mem_allSideKeys (cells : List (Nat × Nat))
    (fcs : List FractCoords) (nbr : Nat → EdgeCode → List Nat)
    (hconf : ∀ i < cells.length, ∀ s ∈ allEdgeCodes, SideOk cells fcs nbr i s)
    (k : EdgeKey) (hk : isInteriorKey cells fcs nbr k) :
    k ∈ allSideKeys fcs cells.length := by
  obtain ⟨i, hi, s, hs, j, hj, rfl⟩ := hk
  have hi' := List.mem_range.mp hi
  rcases hconf i hi' s hs with hempty | ⟨hlen1, hjbd, hjlev, hjsh⟩ |
    ⟨hne, hbd, hlev, hsh, _, _, _⟩
  · rw [hempty] at hj
    cases hj
  · obtain ⟨j', hns⟩ := List.length_eq_one.mp hlen1
    rw [hns] at hj hjbd hjlev hjsh
    simp only [List.getD_cons_zero] at hjbd hjlev hjsh
    simp only [List.mem_singleton] at hj
    subst hj
    unfold emittedKey
    rw [if_pos hjlev]
    exact sideKey_mem_allSideKeys fcs cells.length i s hi'
  · have hnlt : ¬(cells.getD j (0, 0)).1 < (cells.getD i (0, 0)).1 := by
      rcases hlev j hj with h | ⟨h, _, _⟩ <;> omega
    unfold emittedKey
    rw [if_neg hnlt]
    have hkey : mkEdgeKey (axisDir s) (selMin s (fcs.getD j fc0))
        (selMax s (fcs.getD j fc0)) (selShared s (fcs.getD i fc0)) =
        sideKey fcs j (opposite s) := by
      unfold sideKey
      rw [axisDir_opposite, selMin_opposite, selMax_opposite, hsh j hj]
    rw [hkey]
    exact sideKey_mem_allSideKeys fcs cells.length j (opposite s) (hbd j hj)

/-- Under conformity, the key a cell emits for a neighbour equals the key
that neighbour emits back for the cell from the opposite side: the same
geometric edge produced from either adjacent cell has one canonical key. -/
theorem emittedKey_symm (cells : List (Nat × Nat)) (fcs : List FractCoords)
    (nbr : Nat → EdgeCode → List Nat)
    (hconf : ∀ i < cells.length, ∀ s ∈ allEdgeCodes, SideOk cells fcs nbr i s)
    (i : Nat) (hi : i < cells.length) (s : EdgeCode) (j : Nat)
    (hj : j ∈ nbr i s) :
    emittedKey cells fcs i s j = emittedKey cells fcs j (opposite s) i := by
  rcases hconf i hi s (mem_allEdgeCodes s) with hempty | ⟨hlen1, hjbd, hjlev, hjsh⟩ |
    ⟨hne, hbd, hlev, hsh, _, _, _⟩
  · rw [hempty] at hj
    cases hj
  · obtain ⟨j', hns⟩ := List.length_eq_one.mp hlen1
    rw [hns] at hj hjbd hjlev hjsh
    simp only [List.getD_cons_zero] at hjbd hjlev hjsh
    simp only [List.mem_singleton] at hj
    subst hj
    unfold emittedKey
    rw [if_pos hjlev, if_neg (by omega)]
    unfold sideKey
    rw [axisDir_opposite, selMin_opposite, selMax_opposite, hjsh]
  · have hnlt : ¬(cells.getD j (0, 0)).1 < (cells.getD i (0, 0)).1 := by
      rcases hlev j hj with h | ⟨h, _, _⟩ <;> omega
    rcases hlev j hj with hlt | ⟨hleq, hmin, hmax⟩
    · unfold emittedKey
      rw [if_neg hnlt, if_pos hlt]
      unfold sideKey
      rw [axisDir_opposite, selMin_opposite, selMax_opposite, hsh j hj]
    · unfold emittedKey
      rw [if_neg hnlt, if_neg (by omega)]
      rw [axisDir_opposite, selMin_opposite, selMax_opposite, hsh j hj, hmin, hmax]

/-- The empty builder state satisfies the invariant. -/
theorem emptyEdgeState_inv (cells : List (Nat × Nat)) (fcs : List FractCoords)
    (nbr : Nat → EdgeCode → List Nat) : EdgeInv cells fcs nbr emptyEdgeState := by
  refine ⟨rfl, List.nodup_nil, ?_⟩
  intro e he
  simp only [emptyEdgeState, List.length_nil] at he
  omega

/-- **C8**: for every assembled leaf set forming a conforming mesh (each
side has either no neighbour, one strictly coarser neighbour sharing its
line, or equal-or-finer neighbours whose sorted spans tile it exactly, with
boundary side keys distinct from interior keys), the edge builder
deduplicates by the canonical `(direction, min, max, shared)` fraction key:
the key cache is duplicate-free with one adjacency record per key, at most
`4 * num_cells` edges are produced, every produced edge is a boundary or an
interior edge, boundary edges reference exactly 1 cell and interior edges
exactly 2, and the same geometric edge produced from either adjacent cell
yields the same canonical key, which is cached — exactly once, the cache
being duplicate-free — as a single record. -/
theorem edge_builder_dedup_and_counts (info : List LevelEntry)
    (cells : List (Nat × Nat)) (nbr : Nat → EdgeCode → List Nat)
    (hconf : ∀ i < cells.length, ∀ s ∈ allEdgeCodes,
      SideOk cells (edgeFractCoords info cells) nbr i s)
    (hdisj : ∀ i < cells.length, ∀ s ∈ allEdgeCodes, nbr i s = [] →
      ¬isInteriorKey cells (edgeFractCoords info cells) nbr
        (sideKey (edgeFractCoords info cells) i s)) :
    (calcCellEdges info cells nbr).cache.Nodup ∧
    (calcCellEdges info cells nbr).adj.length =
      (calcCellEdges info cells nbr).cache.length ∧
    (calcCellEdges info cells nbr).cache.length ≤ 4 * cells.length ∧
    (∀ e < (calcCellEdges info cells nbr).cache.length,
      (isBoundaryKey (edgeFractCoords info cells) cells.length nbr
          ((calcCellEdges info cells nbr).cache.getD e key0) ∨
        isInteriorKey cells (edgeFractCoords info cells) nbr
          ((calcCellEdges info cells nbr).cache.getD e key0)) ∧
      (isBoundaryKey (edgeFractCoords info cells) cells.length nbr
          ((calcCellEdges info cells nbr).cache.getD e key0) →
        refCount ((calcCellEdges info cells nbr).adj.getD e (none, none)) = 1) ∧
      (isInteriorKey cells (edgeFractCoords info cells) nbr
          ((calcCellEdges info cells nbr).cache.getD e key0) →
        refCount ((calcCellEdges info cells nbr).adj.getD e (none, none)) = 2)) ∧
    (∀ i < cells.length, ∀ s ∈ allEdgeCodes, ∀ j ∈ nbr i s,
      emittedKey cells (edgeFractCoords info cells) i s j =
        emittedKey cells (edgeFractCoords info cells) j (opposite s) i ∧
      emittedKey cells (edgeFractCoords info cells) i s j ∈
        (calcCellEdges info cells nbr).cache) := by
  have hrange : ∀ i ∈ List.range cells.length, i < cells.length :=
    fun i hi => List.mem_range.mp hi
  have hconf' : ∀ i ∈ List.range cells.length, ∀ s ∈ allEdgeCodes,
      SideOk cells (edgeFractCoords info cells) nbr i s :=
    fun i hi => hconf i (List.mem_range.mp hi)
  have h := calcFold_spec cells (edgeFractCoords info cells) nbr
    (List.range cells.length) emptyEdgeState hrange hconf'
    (emptyEdgeState_inv cells (edgeFractCoords info cells) nbr)
  have hcalc : calcCellEdges info cells nbr =
      (List.range cells.length).foldl
        (processCell cells (edgeFractCoords info cells) nbr) emptyEdgeState := rfl
  rw [hcalc]
  obtain ⟨⟨hlen, hnodup, hcls⟩, _, hcov⟩ := h
  refine ⟨hnodup, hlen, ?_, ?_, ?_⟩
  · have hsubkeys : ∀ k ∈ ((List.range cells.length).foldl
        (processCell cells (edgeFractCoords info cells) nbr) emptyEdgeState).cache,
        k ∈ allSideKeys (edgeFractCoords info cells) cells.length := by
      intro k hk
      obtain ⟨e, he, hke⟩ := List.mem_iff_getElem.mp hk
      have hcl := hcls e he
      rw [List.getD_eq_getElem _ _ he, hke] at hcl
      rcases hcl with ⟨hbk, _⟩ | ⟨hik, _⟩
      · obtain ⟨i, hi, s, _, _, rfl⟩ := hbk
        exact sideKey_mem_allSideKeys (edgeFractCoords info cells) cells.length
          i s (List.mem_range.mp hi)
      · exact interiorKey_mem_allSideKeys cells (edgeFractCoords info cells)
          nbr hconf k hik
    calc ((List.range cells.length).foldl
        (processCell cells (edgeFractCoords info cells) nbr) emptyEdgeState).cache.length
        = ((List.range cells.length).foldl
            (processCell cells (edgeFractCoords info cells) nbr)
            emptyEdgeState).cache.toFinset.card :=
          (List.toFinset_card_of_nodup hnodup).symm
      _ ≤ (allSideKeys (edgeFractCoords info cells) cells.length).toFinset.card :=
          Finset.card_le_card (fun x hx => List.mem_toFinset.mpr
            (hsubkeys x (List.mem_toFinset.mp hx)))
      _ ≤ (allSideKeys (edgeFractCoords info cells) cells.length).length :=
          List.toFinset_card_le _
      _ = 4 * cells.length := allSideKeys_length (edgeFractCoords info cells) _
  · intro e he
    have hcl := hcls e he
    refine ⟨?_, ?_, ?_⟩
    · rcases hcl with ⟨hb, _⟩ | ⟨hi, _⟩
      · exact Or.inl hb
      · exact Or.inr hi
    · intro hbk
      rcases hcl with ⟨_, h1⟩ | ⟨hik, _⟩
      · exact h1
      · obtain ⟨i, hi, s, hs, hnil, hkey⟩ := hbk
        exact absurd (hkey ▸ hik) (hdisj i (List.mem_range.mp hi) s hs hnil)
    · intro hik
      rcases hcl with ⟨hbk, _⟩ | ⟨_, h2⟩
      · obtain ⟨i, hi, s, hs, hnil, hkey⟩ := hbk
        exact absurd (hkey ▸ hik) (hdisj i (List.mem_range.mp hi) s hs hnil)
      · exact h2
  · intro i hi s hs j hj
    refine ⟨emittedKey_symm cells (edgeFractCoords info cells) nbr hconf
      i hi s j hj, ?_⟩
    exact (hcov i (List.mem_range.mpr hi) s hs).2 j hj

/-- Witness for `edge_builder_dedup_and_counts`: two side-by-side level-1
cells of a 2-by-1 grid, adjacent along their shared vertical line. -/
theorem edge_builder_dedup_and_counts_witness :
    (calcCellEdges [⟨1, 1⟩, ⟨2, 1⟩] [(1, 0), (1, 1)] twoCellNbr).cache.Nodup ∧
    (calcCellEdges [⟨1, 1⟩, ⟨2, 1⟩] [(1, 0), (1, 1)] twoCellNbr).adj.length =
      (calcCellEdges [⟨1, 1⟩, ⟨2, 1⟩] [(1, 0), (1, 1)] twoCellNbr).cache.length ∧
    (calcCellEdges [⟨1, 1⟩, ⟨2, 1⟩] [(1, 0), (1, 1)] twoCellNbr).cache.length ≤
      4 * ([(1, 0), (1, 1)] : List (Nat × Nat)).length ∧
    (∀ e < (calcCellEdges [⟨1, 1⟩, ⟨2, 1⟩] [(1, 0), (1, 1)] twoCellNbr).cache.length,
      (isBoundaryKey (edgeFractCoords [⟨1, 1⟩, ⟨2, 1⟩] [(1, 0), (1, 1)])
          ([(1, 0), (1, 1)] : List (Nat × Nat)).length twoCellNbr
          ((calcCellEdges [⟨1, 1⟩, ⟨2, 1⟩] [(1, 0), (1, 1)] twoCellNbr).cache.getD e key0) ∨
        isInteriorKey [(1, 0), (1, 1)]
          (edgeFractCoords [⟨1, 1⟩, ⟨2, 1⟩] [(1, 0), (1, 1)]) twoCellNbr
          ((calcCellEdges [⟨1, 1⟩, ⟨2, 1⟩] [(1, 0), (1, 1)] twoCellNbr).cache.getD e key0)) ∧
      (isBoundaryKey (edgeFractCoords [⟨1, 1⟩, ⟨2, 1⟩] [(1, 0), (1, 1)])
          ([(1, 0), (1, 1)] : List (Nat × Nat)).length twoCellNbr
          ((calcCellEdges [⟨1, 1⟩, ⟨2, 1⟩] [(1, 0), (1, 1)] twoCellNbr).cache.getD e key0) →
        refCount ((calcCellEdges [⟨1, 1⟩, ⟨2, 1⟩] [(1, 0), (1, 1)] twoCellNbr).adj.getD
          e (none, none)) = 1) ∧
      (isInteriorKey [(1, 0), (1, 1)]
          (edgeFractCoords [⟨1, 1⟩, ⟨2, 1⟩] [(1, 0), (1, 1)]) twoCellNbr
          ((calcCellEdges [⟨1, 1⟩, ⟨2, 1⟩] [(1, 0), (1, 1)] twoCellNbr).cache.getD e key0) →
        refCount ((calcCellEdges [⟨1, 1⟩, ⟨2, 1⟩] [(1, 0), (1, 1)] twoCellNbr).adj.getD
          e (none, none)) = 2)) ∧
    (∀ i < ([(1, 0), (1, 1)] : List (Nat × Nat)).length, ∀ s ∈ allEdgeCodes,
      ∀ j ∈ twoCellNbr i s,
      emittedKey [(1, 0), (1, 1)] (edgeFractCoords [⟨1, 1⟩, ⟨2, 1⟩] [(1, 0), (1, 1)]) i s j =
        emittedKey [(1, 0), (1, 1)] (edgeFractCoords [⟨1, 1⟩, ⟨2, 1⟩] [(1, 0), (1, 1)])
          j (opposite s) i ∧
      emittedKey [(1, 0), (1, 1)] (edgeFractCoords [⟨1, 1⟩, ⟨2, 1⟩] [(1, 0), (1, 1)]) i s j ∈
        (calcCellEdges [⟨1, 1⟩, ⟨2, 1⟩] [(1, 0), (1, 1)] twoCellNbr).cache) :=
  edge_builder_dedup_and_counts [⟨1, 1⟩, ⟨2, 1⟩] [(1, 0), (1, 1)] twoCellNbr
    (by decide) (by decide)

end GridEdges

end Gridmen
